import Mathlib

/-!
# polyium/template-go-cli : `internal/filewalker`

A shallow embedding of the file-type classifier, the locator (`New`, `Find`, `find`) and the
walker (`Walk`) of `internal/filewalker/filewalker.go`, together with the parts of the Go
standard library they call (`strings`, `path/filepath` on a slash-separated system).

Go strings are modelled by Lean strings (sequences of code points); every helper works on the
underlying `List Char` by structural recursion, so that each definition can be evaluated.
-/

namespace filewalker

/-! ## `strings` -/

/-- Rune-wise lower-casing as done by `unicode.ToLower`: `A`..`Z` go to `a`..`z`; outside ASCII
the only runes with an ASCII lower-case image are U+0130 (to `i`) and U+212A (to `k`). Every other
non-ASCII rune has a non-ASCII image, which is kept as the rune itself here: the program only ever
compares a lower-cased string with ASCII literals, and such a rune differs from all of them
either way. -/
def toLowerRune (c : Char) : Char :=
  if 65 ≤ c.toNat ∧ c.toNat ≤ 90 then Char.ofNat (c.toNat + 32)
  else if c.toNat = 0x130 then 'i'
  else if c.toNat = 0x212A then 'k'
  else c

/-- Go `strings.ToLower`. -/
def ToLower (s : String) : String := ⟨s.data.map toLowerRune⟩

/-- Go `unicode.IsSpace`. -/
def isSpace (c : Char) : Bool :=
  let n := c.toNat
  (9 ≤ n && n ≤ 13) || n == 0x20 || n == 0x85 || n == 0xA0 || n == 0x1680 ||
    (0x2000 ≤ n && n ≤ 0x200A) || n == 0x2028 || n == 0x2029 || n == 0x202F ||
    n == 0x205F || n == 0x3000

/-- Go `strings.TrimSpace`: leading and trailing white space removed. -/
def TrimSpace (s : String) : String := ⟨(s.data.dropWhile isSpace).rdropWhile isSpace⟩

/-- Go `strings.HasPrefix(s, ".")`. -/
def hasLeadingDot (s : String) : Bool :=
  match s.data with
  | c :: _ => c == '.'
  | [] => false

/-- Go `strings.TrimPrefix(s, ".")`. -/
def trimLeadingDot (s : String) : String :=
  match s.data with
  | c :: cs => if c == '.' then ⟨cs⟩ else s
  | [] => s

/-! ## `path/filepath` (slash-separated systems) -/

/-- Go `filepath.Separator`. -/
def Separator : Char := '/'

/-- The elements of a path between separators, empty ones included. -/
def splitSep : List Char → List (List Char)
  | [] => [[]]
  | c :: cs =>
    if c = Separator then [] :: splitSep cs
    else
      match splitSep cs with
      | [] => [[c]]
      | e :: es => (c :: e) :: es

/-- One element of `Clean`'s scan over a rooted path; `out` holds the kept elements, last first.
Empty and `.` elements are dropped, `..` removes the last kept element if there is one. -/
def cleanStepRooted (out : List (List Char)) (e : List Char) : List (List Char) :=
  if e = [] ∨ e = ['.'] then out
  else if e = ['.', '.'] then out.tail
  else e :: out

/-- One element of `Clean`'s scan over a path that is not rooted: `..` removes the last kept
element unless nothing but `..` elements are kept, in which case it is kept as well. -/
def cleanStepRelative (out : List (List Char)) (e : List Char) : List (List Char) :=
  if e = [] ∨ e = ['.'] then out
  else if e = ['.', '.'] then
    match out with
    | [] => [e]
    | top :: rest => if top = ['.', '.'] then e :: out else rest
  else e :: out

/-- The kept elements written out with single separators between them. -/
def joinSep : List (List Char) → List Char
  | [] => []
  | [e] => e
  | e :: es => e ++ Separator :: joinSep es

/-- Go `filepath.Clean` on the characters of a path. -/
def cleanChars (path : List Char) : List Char :=
  match path with
  | [] => ['.']
  | c :: cs =>
    if c = Separator then
      Separator :: joinSep ((splitSep cs).foldl cleanStepRooted []).reverse
    else
      let out := joinSep ((splitSep (c :: cs)).foldl cleanStepRelative []).reverse
      if out = [] then ['.'] else out

/-- Go `filepath.Clean`. -/
def Clean (path : String) : String := ⟨cleanChars path.data⟩

/-- Go `filepath.IsAbs`. -/
def IsAbs (path : String) : Bool :=
  match path.data with
  | c :: _ => c == Separator
  | [] => false

/-- Go `filepath.Join`: leading empty elements are ignored, the rest is joined with separators
and cleaned; the result is empty when every element is. -/
def Join : List String → String
  | [] => ""
  | e :: es => if e = "" then Join es else Clean ⟨joinSep ((e :: es).map String.data)⟩

/-- Go `filepath.Base`: the last element of the path, trailing separators removed first. -/
def Base (path : String) : String :=
  if path = "" then "."
  else
    let stripped := path.data.rdropWhile (· == Separator)
    let last := stripped.rtakeWhile (· != Separator)
    if last = [] then ⟨[Separator]⟩ else ⟨last⟩

/-- Go `filepath.Dir`: everything up to the last separator, cleaned. -/
def Dir (path : String) : String := Clean ⟨path.data.rdropWhile (· != Separator)⟩

/-- Go `filepath.Ext`: the suffix starting at the last dot of the last element of the path,
empty when that element has no dot. -/
def Ext (path : String) : String :=
  let last := path.data.rtakeWhile (· != Separator)
  if '.' ∈ last then ⟨'.' :: last.rtakeWhile (· != '.')⟩ else ""

/-- Go `strings.Contains(v, string(filepath.Separator))`. -/
def containsSeparator (v : String) : Bool := v.data.contains Separator

/-! ## The type classifier -/

/-- Go `type Type int`; only the six flags below and the zero value ever occur. -/
abbrev FileType := Nat

/-- Bit flag `1 << 0`. -/
def File : FileType := 1 <<< 0
/-- Bit flag `1 << 1`. -/
def YAML : FileType := 1 <<< 1
/-- Bit flag `1 << 2`. -/
def JSON : FileType := 1 <<< 2
/-- Bit flag `1 << 3`. -/
def Text : FileType := 1 <<< 3
/-- Bit flag `1 << 4`. -/
def Unknown : FileType := 1 <<< 4
/-- Bit flag `1 << 5`. -/
def Directory : FileType := 1 <<< 5

/-- Method `(*Type).From`: the value stored into the receiver. -/
def From (extension : String) : FileType :=
  let extension := if hasLeadingDot extension then trimLeadingDot extension else extension
  let l := ToLower extension
  if l = "directory" then Unknown
  else if l = "file" then File
  else if l = "yaml" ∨ l = "yml" then YAML
  else if l = "json" ∨ l = "json5" then JSON
  else if l = "text" ∨ l = "txt" then Text
  else if l = "unknown" then Unknown
  else Unknown

/-- Function `Extension`: a zero `Type` on which `From` is called. -/
def Extension (extension : String) : FileType := From extension

/-- The struct `is`, holding the value the capability queries are asked about. -/
structure Is where
  t : FileType
deriving DecidableEq, Repr

/-- Method `(*Type).Is` on a non-nil receiver. -/
def FileType.Is (t : FileType) : Is := ⟨t⟩

/-- Method `is.File`. -/
def Is.File (i : Is) : Bool := (i.t &&& filewalker.File) == filewalker.File
/-- Method `is.YAML`. -/
def Is.YAML (i : Is) : Bool := (i.t &&& filewalker.YAML) == filewalker.YAML
/-- Method `is.JSON`. -/
def Is.JSON (i : Is) : Bool := (i.t &&& filewalker.JSON) == filewalker.JSON
/-- Method `is.Text`. -/
def Is.Text (i : Is) : Bool := (i.t &&& filewalker.Text) == filewalker.Text
/-- Method `is.Unknown`. -/
def Is.Unknown (i : Is) : Bool := (i.t &&& filewalker.Unknown) == filewalker.Unknown
/-- Method `is.Directory`. -/
def Is.Directory (i : Is) : Bool := (i.t &&& filewalker.Directory) == filewalker.Directory

/-! ## The environment: errors, file information, the filesystem -/

/-- The Go `error` values that occur: the `os` sentinels the package returns, the two
`filepath` sentinels that steer `filepath.Walk`, and any other error of the operating system or
of the version-control library. -/
inductive GoError
  | ErrInvalid
  | ErrNotExist
  | SkipDir
  | SkipAll
  | other (msg : String)
deriving DecidableEq, Repr

deriving instance DecidableEq for Except

/-- The part of `os.FileInfo` the package reads: `Name()` and `IsDir()`. -/
structure FileInfo where
  name : String
  isDir : Bool
deriving DecidableEq, Repr

/-- What `filepath.Walk` sees below a path: an entry that is not a directory, a directory with
the entries `readDirNames` lists (in the order it lists them), a directory that cannot be read,
or a name whose `Lstat` fails. -/
inductive Node
  | file (name : String)
  | dir (name : String) (entries : List Node)
  | unreadable (name : String) (err : GoError)
  | broken (name : String) (err : GoError)
deriving Repr

/-- The name under which the entry is listed in its directory. -/
def Node.name : Node → String
  | .file n => n
  | .dir n _ => n
  | .unreadable n _ => n
  | .broken n _ => n

/-- Whether `Lstat` succeeds on the entry and reports a directory. -/
def Node.isDir : Node → Bool
  | .file _ => false
  | .dir _ _ => true
  | .unreadable _ _ => true
  | .broken _ _ => false

/-- Everything outside the process that `Find` and `Walk` consult: `os.Getwd`, `os.Stat`, the
repository-root lookup `(*Data).root` (which defers to the version-control library), and the
tree `filepath.Walk` meets at a path. -/
structure World where
  getwd : Except GoError String
  stat : String → Except GoError FileInfo
  root : String → Except GoError String
  tree : String → Node

/-- Go `filepath.Abs`: an absolute path is cleaned, any other is joined to the working
directory; it fails only when the working directory is unavailable, returning the empty path. -/
def Abs (w : World) (path : String) : String × Option GoError :=
  if IsAbs path then (Clean path, none)
  else
    match w.getwd with
    | .error e => ("", some e)
    | .ok wd => (Join [wd, path], none)

/-! ## The locator -/

/-- The struct `Data`: the search targets and the cached, qualified path. -/
structure Data where
  target : List String
  qualified : String
deriving DecidableEq, Repr

/-- One pass of the loop body of `New` at index `idx`: a name containing the separator is
replaced by its base name, and the trimmed value is written back at the same index. -/
def normalizeAt (directory : List String) (idx : Nat) : List String :=
  match directory[idx]? with
  | none => directory
  | some v =>
    let v := if containsSeparator v then Base v else v
    directory.set idx (TrimSpace v)

/-- Function `New`: seeds an empty argument list with "testdata", then rewrites every index. -/
def New (directory : List String) : Data :=
  let directory := if directory.length = 0 then "testdata" :: directory else directory
  let directory := (List.range directory.length).foldl normalizeAt directory
  { target := directory, qualified := "" }

/-- The number of rounds granted to the loop of `find`; `findLoop_fuel_suffices` shows that the
loop always ends within it. -/
def findFuel (start : String) : Nat := 2 * start.length + 3

/-- The loop of `(*Data).find`: return the first `current/desired` on which `os.Stat`
succeeds, replacing `current` by its parent until the parent equals it; `none` only when the
rounds are used up. -/
def findLoop (w : World) (desired : String) : Nat → String → Option String
  | 0, _ => none
  | n + 1, current =>
    let v := Join [current, desired]
    match w.stat v with
    | .ok _ => some v
    | .error _ =>
      let parent := Dir current
      if parent = current then some "" else findLoop w desired n parent

/-- Method `(*Data).find`. -/
def find (w : World) (start desired : String) : String :=
  (findLoop w desired (findFuel start) start).getD ""

/-- The body of the candidate loops of `Find` for one target, anchored at the working directory
or at the repository root: `none` stands for `continue`, `some v` for `return v, nil`. -/
def tryTarget (w : World) (anchor target : String) : Option String :=
  let literal := TrimSpace target
  if literal = "" then none
  else
    let descriptor := Join [anchor, literal]
    match w.stat descriptor with
    | .error _ => none
    | .ok metadata =>
      if !metadata.isDir then none
      else
        let v := find w descriptor literal
        if v ≠ "" ∧ TrimSpace v ≠ "" then some (TrimSpace v) else none

/-- The loop `for idx := range d.target` of `Find` with its early return. -/
def searchTargets (w : World) (anchor : String) : List String → Option String
  | [] => none
  | t :: ts =>
    match tryTarget w anchor t with
    | some v => some v
    | none => searchTargets w anchor ts

/-- The guard at the head of `Find`: an empty target list is seeded with "testdata". -/
def seedTarget (target : List String) : List String :=
  if target.length = 0 then "testdata" :: target else target

/-- The variable `gitdirectory` of `Find`: the trimmed absolute form of the repository root
when `(*Data).root` succeeds, the empty string otherwise. -/
def gitDirectory (w : World) (cwd : String) : String :=
  match w.root cwd with
  | .ok g => TrimSpace (Abs w g).1
  | .error _ => ""

/-- Method `(*Data).Find` on a non-nil receiver: the receiver afterwards, the returned path and
the returned error. -/
def Data.Find (w : World) (d : Data) : Data × String × Option GoError :=
  let d : Data := { d with target := seedTarget d.target }
  match w.getwd with
  | .error err => (d, "", some err)
  | .ok cwd =>
    let cwd := (Abs w cwd).1
    let gitdirectory := gitDirectory w cwd
    match searchTargets w cwd d.target with
    | some v => ({ d with qualified := v }, v, none)
    | none =>
      if gitdirectory ≠ "" then
        match searchTargets w gitdirectory d.target with
        | some v => ({ d with qualified := v }, v, none)
        | none => (d, "", some GoError.ErrNotExist)
      else (d, "", some GoError.ErrNotExist)

/-- Method `(*Data).Find`; the receiver is `none` when the pointer is nil. -/
def Find (w : World) (d : Option Data) : Option Data × String × Option GoError :=
  match d with
  | none => (none, "", some GoError.ErrInvalid)
  | some d =>
    let r := d.Find w
    (some r.1, r.2.1, r.2.2)

/-! ## The walker -/

/-- The struct `Descriptor`; the field `Type_` is the field `Type` of the source. -/
structure Descriptor where
  Path : String
  Name : String
  Type_ : FileType
deriving DecidableEq, Repr

/-- Go `filepath.WalkFunc`, with the state the closure captures passed through explicitly. -/
abbrev WalkFunc (σ : Type) := String → Option FileInfo → Option GoError → σ → σ × Option GoError

mutual
/-- Go `filepath.walk` on an entry whose `Lstat` result is at hand: an entry that is not a
directory is handed to the callback; a directory is handed to the callback together with the
error of `readDirNames`, and its entries are visited when neither reported an error. -/
def walk {σ : Type} (fn : WalkFunc σ) (path : String) : Node → σ → σ × Option GoError
  | .file name, s => fn path (some ⟨name, false⟩) none s
  | .broken _ err, s => fn path none (some err) s
  | .unreadable name err, s => fn path (some ⟨name, true⟩) (some err) s
  | .dir name entries, s =>
    match fn path (some ⟨name, true⟩) none s with
    | (s, some err1) => (s, some err1)
    | (s, none) => walkEntries fn path entries s
/-- The loop of `filepath.walk` over the names of a directory: a name whose `Lstat` fails is
reported to the callback, any other entry is walked; the loop stops at the first error, except
for `SkipDir` coming from a failed `Lstat` or from a directory. -/
def walkEntries {σ : Type} (fn : WalkFunc σ) (path : String) : List Node → σ → σ × Option GoError
  | [], s => (s, none)
  | n :: ns, s =>
    let filename := Join [path, n.name]
    match n with
    | .broken _ err =>
      match fn filename none (some err) s with
      | (s, none) => walkEntries fn path ns s
      | (s, some e) => if e ≠ GoError.SkipDir then (s, some e) else walkEntries fn path ns s
    | n =>
      match walk fn filename n s with
      | (s, none) => walkEntries fn path ns s
      | (s, some e) =>
        if !n.isDir || e ≠ GoError.SkipDir then (s, some e) else walkEntries fn path ns s
end

/-- Go `filepath.Walk`: the root is handed to the callback when its `Lstat` fails and walked
otherwise; `SkipDir` and `SkipAll` are not reported to the caller. -/
def filepathWalk {σ : Type} (w : World) (root : String) (fn : WalkFunc σ) (s : σ) :
    σ × Option GoError :=
  let r := walk fn root (w.tree root) s
  match r.2 with
  | some e => if e = GoError.SkipDir ∨ e = GoError.SkipAll then (r.1, none) else r
  | none => r

/-- The closure `Walk` passes to `filepath.Walk`, the slice `nodes` being its state: an error
is returned as it is, a directory adds nothing, any other entry appends its `Descriptor`. The
callback never receives a nil `info` without an error. -/
def walkFn : WalkFunc (List Descriptor) := fun path info err nodes =>
  match err with
  | some e => (nodes, some e)
  | none =>
    match info with
    | none => (nodes, none)
    | some info =>
      let t : FileType := if info.isDir then Directory else 0
      if t.Is.Directory then (nodes, none)
      else
        let node : Descriptor :=
          { Path := path, Name := info.name, Type_ := Extension (Ext info.name) }
        (nodes ++ [node], none)

/-- Method `(*Data).Walk`; the receiver is `none` when the pointer is nil. -/
def Walk (w : World) (d : Option Data) : Option Data × List Descriptor × Option GoError :=
  match d with
  | none => (none, [], some GoError.ErrInvalid)
  | some d =>
    let r : Data × Option GoError :=
      if d.qualified = "" then
        let f := d.Find w
        match f.2.2 with
        | some e => (f.1, some e)
        | none => ({ f.1 with qualified := f.2.1 }, none)
      else (d, none)
    match r.2 with
    | some e => (some r.1, [], some e)
    | none =>
      let out := filepathWalk w r.1.qualified walkFn []
      (some r.1, out.1, out.2)

/-! ## Concrete filesystems -/

/-- A filesystem given by the list of its paths, each marked as a directory or not: `os.Stat`
succeeds exactly on the listed paths. -/
def statOf (paths : List (String × Bool)) (path : String) : Except GoError FileInfo :=
  match paths.lookup (Clean path) with
  | some isDir => .ok { name := Base path, isDir := isDir }
  | none => .error GoError.ErrNotExist

/-- The world with the given working directory, repository root (if one is resolved) and
paths; nothing is attached for `filepath.Walk`. -/
def worldOf (cwd : String) (gitRoot : Option String) (paths : List (String × Bool)) : World where
  getwd := .ok cwd
  stat := statOf paths
  root := fun _ =>
    match gitRoot with
    | some g => .ok g
    | none => .error (GoError.other "repository does not exist")
  tree := fun p => .broken (Base p) GoError.ErrNotExist

/-- The tree of the specification's example: `/repo/.git`, `/repo/src` and
`/repo/testdata/x.json`. -/
def repoPaths : List (String × Bool) :=
  [("/", true), ("/repo", true), ("/repo/.git", true), ("/repo/src", true),
    ("/repo/testdata", true), ("/repo/testdata/x.json", false)]

/-- A working directory `/w` whose directory `testdata` holds a regular file that is itself
named `testdata`. -/
def nestedFilePaths : List (String × Bool) :=
  [("/", true), ("/w", true), ("/w/testdata", true), ("/w/testdata/testdata", false)]

/-- A working directory `/w` holding a directory `testdata`. -/
def plainPaths : List (String × Bool) :=
  [("/", true), ("/w", true), ("/w/testdata", true)]

/-- The same working directory after `testdata` has been removed. -/
def removedPaths : List (String × Bool) :=
  [("/", true), ("/w", true)]

/-- The empty working directory `/tmp/empty` of the specification's example. -/
def emptyPaths : List (String × Bool) :=
  [("/", true), ("/tmp", true), ("/tmp/empty", true)]

/-- A repository `/repo` holding `fixtures`, with a working directory `/repo/src` holding
`testdata`. -/
def twoPhasePaths : List (String × Bool) :=
  [("/", true), ("/repo", true), ("/repo/.git", true), ("/repo/fixtures", true),
    ("/repo/src", true), ("/repo/src/testdata", true)]

mutual
/-- The entries below (and including) an entry that are not directories, each with its
traversal path and its name, in traversal order. -/
def Node.files (path : String) : Node → List (String × String)
  | .file name => [(path, name)]
  | .dir _ entries => filesOfEntries path entries
  | .unreadable _ _ => []
  | .broken _ _ => []
/-- The entries that are not directories below the entries of the directory at `path`; the
traversal path of an entry is the path of its directory joined with its name. -/
def filesOfEntries (path : String) : List Node → List (String × String)
  | [] => []
  | n :: ns => n.files (Join [path, n.name]) ++ filesOfEntries path ns
end

mutual
/-- Whether `Lstat` succeeds on the entry and on everything below it, and every directory
among them can be read. -/
def Node.readable : Node → Bool
  | .file _ => true
  | .dir _ entries => readableEntries entries
  | .unreadable _ _ => false
  | .broken _ _ => false
/-- Whether every listed entry is readable. -/
def readableEntries : List Node → Bool
  | [] => true
  | n :: ns => n.readable && readableEntries ns
end

mutual
/-- The number of directories at and below the entry. -/
def Node.countDirs : Node → Nat
  | .file _ => 0
  | .dir _ entries => 1 + countDirsOfEntries entries
  | .unreadable _ _ => 1
  | .broken _ _ => 0
/-- The number of directories at and below the listed entries. -/
def countDirsOfEntries : List Node → Nat
  | [] => 0
  | n :: ns => n.countDirs + countDirsOfEntries ns
end

mutual
/-- The number of entries at and below the entry, itself included. -/
def Node.countEntries : Node → Nat
  | .file _ => 1
  | .dir _ entries => 1 + countEntriesOf entries
  | .unreadable _ _ => 1
  | .broken _ _ => 1
/-- The number of entries at and below the listed entries. -/
def countEntriesOf : List Node → Nat
  | [] => 0
  | n :: ns => n.countEntries + countEntriesOf ns
end

/-- The `Descriptor` the specification asks for an entry that is not a directory. -/
def descriptorOf (entry : String × String) : Descriptor :=
  { Path := entry.1, Name := entry.2, Type_ := Extension (Ext entry.2) }

/-- The root of the specification's example: `a.yaml`, `b.txt` and `nested/c.json`. -/
def exampleTree : Node :=
  .dir "testdata" [.file "a.yaml", .file "b.txt", .dir "nested" [.file "c.json"]]

/-- A world in which `filepath.Walk` meets `exampleTree` at every path. -/
def exampleWorld : World :=
  { worldOf "/repo" none [("/", true), ("/repo", true), ("/repo/testdata", true)] with
    tree := fun _ => exampleTree }

/-- The length a list of path elements takes when each is followed by one separator. -/
def elemsWeight (es : List (List Char)) : Nat := (es.map (fun e => e.length + 1)).sum

/-- A measure on paths that every step of `find` to a different parent decreases. -/
def pathMeasure (p : String) : Nat :=
  if p = "" then 3 else 2 * p.length + (if p = "." then 0 else 1)

/-- A single plain path component, as the specification words it: not empty, without a
separator, and neither `.` nor `..`. -/
def isPlain (c : String) : Bool :=
  c ≠ "" && !containsSeparator c && c ≠ "." && c ≠ ".."

/-- A path element that `Clean` keeps as it is: not empty, not `.`, not `..`, and without a
separator. -/
def realElem (e : List Char) : Prop :=
  e ≠ [] ∧ e ≠ ['.'] ∧ e ≠ ['.', '.'] ∧ Separator ∉ e

/-- The shape of the elements `Clean` keeps for a path that is not rooted, last kept first:
elements kept as they are, on top of a run of `..` elements. -/
def relNormal (out : List (List Char)) : Prop :=
  ∃ (reals : List (List Char)) (k : Nat),
    out = reals ++ List.replicate k ['.', '.'] ∧ ∀ r ∈ reals, realElem r

/-- Whether the characters of a path start with the separator. -/
def rootedChars (path : List Char) : Bool :=
  match path with
  | c :: _ => c == Separator
  | [] => false

/-- The elements `Clean` keeps for a path, last kept first. -/
def stackOf (path : List Char) : List (List Char) :=
  match path with
  | [] => []
  | c :: cs =>
    if c = Separator then (splitSep cs).foldl cleanStepRooted []
    else (splitSep (c :: cs)).foldl cleanStepRelative []

/-- The path `Clean` writes for the elements it kept, first kept first. -/
def render (rooted : Bool) (kept : List (List Char)) : List Char :=
  if rooted then Separator :: joinSep kept
  else if joinSep kept = [] then ['.'] else joinSep kept

/-- The shape of the elements `Clean` keeps, last kept first: for a rooted path only elements
kept as they are, otherwise such elements above a run of `..`. -/
def normalStack (rooted : Bool) (out : List (List Char)) : Prop :=
  if rooted then ∀ e ∈ out, realElem e else relNormal out

/-- The candidate `New` is to store for a supplied name, as the specification words it: the base
name when the name contains a separator, surrounding white space trimmed. -/
def candidateOf (v : String) : String :=
  TrimSpace (if containsSeparator v then Base v else v)

/-- The classifier as the specification words it: strip one leading `.`, lower-case, then look
the result up in the table of known extensions. -/
def referenceMapping (ext : String) : FileType :=
  let stripped : String := match ext.data with
    | '.' :: rest => ⟨rest⟩
    | _ => ext
  let key := ToLower stripped
  if key ∈ ["yaml", "yml"] then YAML
  else if key ∈ ["json", "json5"] then JSON
  else if key ∈ ["text", "txt"] then Text
  else if key ∈ ["file"] then File
  else Unknown



end filewalker

/-! # `internal/types/level` -/

namespace slog

/-- Go `slog.LevelDebug`. -/
def LevelDebug : Int := -4
/-- Go `slog.LevelInfo`. -/
def LevelInfo : Int := 0
/-- Go `slog.LevelWarn`. -/
def LevelWarn : Int := 4
/-- Go `slog.LevelError`. -/
def LevelError : Int := 8

end slog

namespace level

/-- Go `type Type string` of package `level`. -/
abbrev Type_ := String

/-- Constant `Trace`. -/
def Trace : Type_ := "trace"
/-- Constant `Debug`. -/
def Debug : Type_ := "debug"
/-- Constant `Info`. -/
def Info : Type_ := "info"
/-- Constant `Notice`. -/
def Notice : Type_ := "notice"
/-- Constant `Warning`. -/
def Warning : Type_ := "warning"
/-- Constant `Error`. -/
def Error : Type_ := "error"

/-- Method `(*Type).Set`: the receiver afterwards and the returned error, `none` for nil. The
switch is on the lower-cased argument, the assignment stores the argument as it was given. -/
def Set (o : Type_) (v : String) : Type_ × Option String :=
  let l := filewalker.ToLower v
  if l = "trace" ∨ l = "debug" ∨ l = "info" ∨ l = "notice" ∨ l = "warning" ∨ l = "error" then
    (v, none)
  else
    (o, some "must be one of \"trace\", \"debug\", \"info\", \"notice\", \"warning\", \"error\"")

/-- Method `Type.Level`. -/
def Level (o : Type_) : Int :=
  if o = Trace then -8
  else if o = Debug then slog.LevelDebug
  else if o = Info then slog.LevelInfo
  else if o = Notice then 2
  else if o = Warning then slog.LevelWarn
  else if o = Error then slog.LevelError
  else slog.LevelError

/-- The `slog` level of the level name a string spells ignoring case, as the specification
words it; `none` when the string spells no level name. -/
def levelOfName (v : String) : Option Int :=
  let l := filewalker.ToLower v
  if l = "trace" then some (-8)
  else if l = "debug" then some slog.LevelDebug
  else if l = "info" then some slog.LevelInfo
  else if l = "notice" then some 2
  else if l = "warning" then some slog.LevelWarn
  else if l = "error" then some slog.LevelError
  else none

end level

namespace filewalker

/-! ## Theorems: the library model on documented inputs -/

/-- The model of `path/filepath` and `strings.TrimSpace` agrees with the results the Go
documentation and tests give for these inputs. -/
theorem filepath_samples :
    Clean "" = "." ∧      Clean "/" = "/" ∧      Clean "//a/./b/../c/" = "/a/c" ∧      Clean "a/../.." = ".." ∧      Clean "../../a/.." = "../.." ∧      Clean "/../a" = "/a" ∧      Clean "a/b/../../.." = ".." ∧      Clean "./" = "." ∧      Join ["", "a", "", "b"] = "a/b" ∧      Join ["", ""] = "" ∧      Join ["/repo/src", "testdata"] = "/repo/src/testdata" ∧      Join ["/", "testdata"] = "/testdata" ∧      Base "" = "." ∧      Base "/" = "/" ∧      Base "///" = "/" ∧      Base "a/b/" = "b" ∧      Base "a/ " = " " ∧      Base "abc" = "abc" ∧      Dir "/a/b" = "/a" ∧      Dir "/a" = "/" ∧      Dir "/" = "/" ∧      Dir "a" = "." ∧      Dir "" = "." ∧      Dir "a/b/" = "a/b" ∧      Ext "a.yaml" = ".yaml" ∧      Ext "a.b/c" = "" ∧      Ext "a.tar.gz" = ".gz" ∧      Ext "a." = "." ∧      Ext ".bashrc" = ".bashrc" ∧      TrimSpace "  a b \t\n" = "a b" := by
  decide

/-! ## Theorems: the type classifier -/

/-- The two ways of stripping one leading dot agree. -/
theorem strip_leading_dot (ext : String) :
    (if hasLeadingDot ext then trimLeadingDot ext else ext) =
      (match ext.data with
        | '.' :: rest => (⟨rest⟩ : String)
        | _ => ext) := by
  rcases ext with ⟨l⟩
  cases l with
  | nil => simp [hasLeadingDot]
  | cons c cs =>
    by_cases hc : c = '.'
    · subst hc
      simp [hasLeadingDot, trimLeadingDot]
    · simp [hasLeadingDot, hc]

/-- The value of `From` depends on the lower-cased, dot-stripped extension only through the
reference table. -/
theorem From_eq_table (ext : String) : From ext = referenceMapping ext := by
  unfold From referenceMapping
  simp only [strip_leading_dot]
  generalize ToLower (match ext.data with
        | '.' :: rest => (⟨rest⟩ : String)
        | _ => ext) = key
  by_cases h1 : key = "directory"
  · subst h1; decide
  by_cases h2 : key = "file"
  · subst h2; decide
  by_cases h3 : key = "yaml"
  · subst h3; decide
  by_cases h4 : key = "yml"
  · subst h4; decide
  by_cases h5 : key = "json"
  · subst h5; decide
  by_cases h6 : key = "json5"
  · subst h6; decide
  by_cases h7 : key = "text"
  · subst h7; decide
  by_cases h8 : key = "txt"
  · subst h8; decide
  simp [h1, h2, h3, h4, h5, h6, h7, h8]

/-- C1: `Extension` equals the reference mapping on every string (one leading dot stripped,
lower-cased, then yaml/yml to YAML, json/json5 to JSON, text/txt to Text, file to File and
everything else to Unknown), and in particular on the listed sample inputs. -/
theorem C1_Extension_eq_referenceMapping :
    (∀ ext : String, Extension ext = referenceMapping ext) ∧
      Extension "yml" = YAML ∧ Extension "YAML" = YAML ∧ Extension "json5" = JSON ∧
      Extension "" = Unknown ∧ Extension "directory" = Unknown ∧ Extension "unknown" = Unknown :=
  ⟨fun ext => From_eq_table ext, by decide, by decide, by decide, by decide, by decide, by decide⟩

/-- `Extension` only ever yields one of five flags, never `Directory`. -/
theorem Extension_cases (ext : String) :
    Extension ext = File ∨ Extension ext = YAML ∨ Extension ext = JSON ∨
      Extension ext = Text ∨ Extension ext = Unknown := by
  unfold Extension From
  simp only
  split_ifs <;> simp

/-- C2: for every string, exactly one of the queries YAML, JSON, Text, File, Unknown holds of
the classified value, and the query Directory does not. -/
theorem C2_exactly_one_query (ext : String) :
    [(Extension ext).Is.YAML, (Extension ext).Is.JSON, (Extension ext).Is.Text,
        (Extension ext).Is.File, (Extension ext).Is.Unknown].count true = 1 ∧
      (Extension ext).Is.Directory = false := by
  rcases Extension_cases ext with h | h | h | h | h <;> rw [h] <;> decide

/-! ## Theorems: `New` -/

/-- The loop body of `New` at the index where `x` stands rewrites `x` and nothing else. -/
theorem normalizeAt_append (a : List String) (x : String) (b : List String) :
    normalizeAt (a ++ x :: b) a.length = a ++ candidateOf x :: b := by
  have h : (a ++ x :: b)[a.length]? = some x := by
    rw [List.getElem?_append_right (Nat.le_refl _)]
    simp
  unfold normalizeAt
  rw [h]
  simp [candidateOf]

/-- Running the loop of `New` over the indices of `b` in `a ++ b` rewrites exactly `b`. -/
theorem foldl_normalizeAt_range (b : List String) :
    ∀ a : List String,
      (List.range' a.length b.length).foldl normalizeAt (a ++ b) = a ++ b.map candidateOf := by
  induction b with
  | nil => intro a; simp
  | cons x b ih =>
    intro a
    rw [List.length_cons, List.range'_succ, List.foldl_cons, normalizeAt_append]
    have h := ih (a ++ [candidateOf x])
    simp only [List.length_append, List.length_singleton, List.append_assoc,
      List.singleton_append] at h
    rw [h]
    simp

/-- The candidate list `New` stores for a non-empty argument list. -/
theorem New_target_cons (d : String) (ds : List String) :
    (New (d :: ds)).target = (d :: ds).map candidateOf := by
  unfold New
  simp only [List.length_cons, Nat.add_one_ne_zero, if_false]
  have h := foldl_normalizeAt_range (d :: ds) []
  rw [List.range_eq_range']
  simpa using h

/-- C3: `New()` stores exactly the candidate "testdata", `New("a/b")` stores exactly "b", and
for any supplied candidates `New` keeps their number and order, each replaced by its base name
when it contains a separator and trimmed of surrounding white space. -/
theorem C3_New_candidates :
    (New []).target = ["testdata"] ∧ (New ["a/b"]).target = ["b"] ∧
      ∀ (d : String) (ds : List String),
        (New (d :: ds)).target =
            (d :: ds).map (fun v => TrimSpace (if containsSeparator v then Base v else v)) ∧
          (New (d :: ds)).target.length = (d :: ds).length := by
  refine ⟨by decide, by decide, fun d ds => ?_⟩
  rw [New_target_cons]
  exact ⟨rfl, by simp⟩

/-- The characters `TrimSpace` keeps are characters of its argument. -/
theorem mem_TrimSpace (s : String) (c : Char) (h : c ∈ (TrimSpace s).data) : c ∈ s.data := by
  have h1 := (List.rdropWhile_prefix isSpace (s.data.dropWhile isSpace)).subset h
  exact (List.dropWhile_suffix isSpace).subset h1

/-- A base name contains the separator only when it is the separator itself. -/
theorem Base_separator (v : String) (h : Separator ∈ (Base v).data) : Base v = "/" := by
  unfold Base at h ⊢
  by_cases h0 : v = ""
  · rw [if_pos h0] at h
    exact absurd h (by decide)
  · rw [if_neg h0] at h ⊢
    simp only at h ⊢
    by_cases hl : List.rtakeWhile (fun x => x != Separator)
        (List.rdropWhile (fun x => x == Separator) v.data) = []
    · rw [if_pos hl]
      rfl
    · rw [if_neg hl] at h
      have := List.mem_rtakeWhile_imp h
      simp at this

/-- A candidate stored by `New` contains the separator only when it is the separator itself,
which is what the base name of a path made of separators only is. -/
theorem candidateOf_separator (v : String) (h : containsSeparator (candidateOf v) = true) :
    candidateOf v = "/" := by
  unfold candidateOf at h ⊢
  have hmem : Separator ∈ (TrimSpace (if containsSeparator v = true then Base v else v)).data := by
    simpa [containsSeparator] using h
  have hmem2 := mem_TrimSpace _ _ hmem
  by_cases hv : containsSeparator v = true
  · rw [if_pos hv] at hmem2 ⊢
    rw [Base_separator v hmem2]
    decide
  · rw [if_neg hv] at hmem2
    exact absurd (by simpa [containsSeparator] using hmem2) hv

/-- C4: `New("/")` stores the candidate "/", which contains the path separator: the base name
of a path made of separators only is the separator itself. -/
theorem C4_New_keeps_separator_of_root :
    (New ["/"]).target = ["/"] ∧ containsSeparator "/" = true ∧
      (New ["a/b/"]).target = ["b"] ∧ (New ["a/ "]).target = [""] := by
  decide

/-! ## Theorems: `Find` -/

/-- The candidate loop yields nothing when every target is skipped. -/
theorem searchTargets_none (w : World) (anchor : String) (ts : List String)
    (h : ∀ t ∈ ts, tryTarget w anchor t = none) : searchTargets w anchor ts = none := by
  induction ts with
  | nil => rfl
  | cons t ts ih =>
    simp only [searchTargets, h t (List.mem_cons_self _ _)]
    exact ih (fun t' ht' => h t' (List.mem_cons_of_mem _ ht'))

/-- The candidate loop returns at the first target that is not skipped. -/
theorem searchTargets_first (w : World) (anchor : String) (ts : List String) :
    ∀ (i : Nat) (t v : String), ts[i]? = some t → tryTarget w anchor t = some v →
      (∀ j t', j < i → ts[j]? = some t' → tryTarget w anchor t' = none) →
      searchTargets w anchor ts = some v := by
  induction ts with
  | nil => intro i t v hi; simp at hi
  | cons a ts ih =>
    intro i t v hi hv hbefore
    cases i with
    | zero =>
      simp only [List.getElem?_cons_zero, Option.some.injEq] at hi
      subst hi
      simp [searchTargets, hv]
    | succ i =>
      have ha : tryTarget w anchor a = none := hbefore 0 a (Nat.succ_pos _) (by simp)
      simp only [searchTargets, ha]
      refine ih i t v (by simpa using hi) hv (fun j t' hj ht' => ?_)
      exact hbefore (j + 1) t' (Nat.succ_lt_succ hj) (by simpa using ht')

/-- A result of the candidate loop is the result of the loop body for one of the targets. -/
theorem searchTargets_some (w : World) (anchor : String) (ts : List String) (p : String)
    (h : searchTargets w anchor ts = some p) : ∃ t ∈ ts, tryTarget w anchor t = some p := by
  induction ts with
  | nil => simp [searchTargets] at h
  | cons t ts ih =>
    unfold searchTargets at h
    cases ht : tryTarget w anchor t with
    | some v =>
      rw [ht] at h
      exact ⟨t, List.mem_cons_self _ _, by rw [ht]; exact h⟩
    | none =>
      rw [ht] at h
      obtain ⟨t', ht', hv⟩ := ih h
      exact ⟨t', List.mem_cons_of_mem _ ht', hv⟩

/-- What the loop body of `Find` returns is never the empty path. -/
theorem tryTarget_ne_empty (w : World) (anchor t p : String)
    (h : tryTarget w anchor t = some p) : p ≠ "" := by
  unfold tryTarget at h
  simp only at h
  by_cases hl : TrimSpace t = ""
  · rw [if_pos hl] at h
    cases h
  · rw [if_neg hl] at h
    cases hs : w.stat (Join [anchor, TrimSpace t]) with
    | error e => simp [hs] at h
    | ok info =>
      rw [hs] at h
      simp only at h
      by_cases hd : (!info.isDir) = true
      · rw [if_pos hd] at h
        cases h
      · rw [if_neg hd] at h
        by_cases hv : find w (Join [anchor, TrimSpace t]) (TrimSpace t) ≠ "" ∧
            TrimSpace (find w (Join [anchor, TrimSpace t]) (TrimSpace t)) ≠ ""
        · rw [if_pos hv] at h
          rw [← Option.some.inj h]
          exact hv.2
        · rw [if_neg hv] at h
          cases h

/-- What `Find` returns, and the targets it leaves, do not depend on the cached path it is
called with: `Find` has no branch on `qualified`. -/
theorem Find_ignores_qualified (w : World) (ts : List String) (q q1 : String) :
    (Find w (some { target := ts, qualified := q })).2 =
        (Find w (some { target := ts, qualified := q1 })).2 ∧
      (Find w (some { target := ts, qualified := q })).1.map Data.target =
        (Find w (some { target := ts, qualified := q1 })).1.map Data.target := by
  simp only [Find, Data.Find]
  cases w.getwd with
  | error e => exact ⟨rfl, rfl⟩
  | ok cwd =>
    simp only
    cases searchTargets w (Abs w cwd).1 (seedTarget ts) with
    | some v => exact ⟨rfl, rfl⟩
    | none =>
      simp only
      split_ifs
      · cases searchTargets w (gitDirectory w (Abs w cwd).1) (seedTarget ts) with
        | some v => exact ⟨rfl, rfl⟩
        | none => exact ⟨rfl, rfl⟩
      · exact ⟨rfl, rfl⟩

/-- A failing `Find` returns the empty path and leaves the cached path as it was. -/
theorem Find_failure_keeps_qualified (w : World) (d d2 : Data) (v : String) (e : GoError)
    (h : Find w (some d) = (some d2, v, some e)) : d2.qualified = d.qualified ∧ v = "" := by
  simp only [Find, Data.Find] at h
  cases hg : w.getwd with
  | error err =>
    simp only [hg, Prod.mk.injEq, Option.some.injEq] at h
    exact ⟨by rw [← h.1], h.2.1.symm⟩
  | ok cwd =>
    simp only [hg] at h
    cases hA : searchTargets w (Abs w cwd).1 (seedTarget d.target) with
    | some x => simp [hA] at h
    | none =>
      simp only [hA] at h
      split_ifs at h with hgit
      · cases hB : searchTargets w (gitDirectory w (Abs w cwd).1) (seedTarget d.target) with
        | some x => simp [hB] at h
        | none =>
          simp only [hB, Prod.mk.injEq, Option.some.injEq] at h
          exact ⟨by rw [← h.1], h.2.1.symm⟩
      · simp only [Prod.mk.injEq, Option.some.injEq] at h
        exact ⟨by rw [← h.1], h.2.1.symm⟩

/-- With a cached path, `Walk` does not call `Find`: it hands the cached path to
`filepath.Walk` and consults nothing else of the world. -/
theorem Walk_uses_cache (w : World) (d : Data) (h : d.qualified ≠ "") :
    Walk w (some d) = (some d, filepathWalk w d.qualified walkFn []) := by
  simp [Walk, h]

/-- A successful `Find` caches the path it returns, which is not empty, and leaves the seeded
targets. -/
theorem Find_success_cached (w : World) (d d1 : Data) (p : String)
    (h : Find w (some d) = (some d1, p, none)) :
    d1 = { target := seedTarget d.target, qualified := p } ∧ p ≠ "" := by
  simp only [Find, Data.Find] at h
  cases hg : w.getwd with
  | error e => simp [hg] at h
  | ok cwd =>
    simp only [hg] at h
    cases hA : searchTargets w (Abs w cwd).1 (seedTarget d.target) with
    | some v =>
      simp only [hA, Prod.mk.injEq, Option.some.injEq] at h
      obtain ⟨h1, h2, -⟩ := h
      subst h2
      obtain ⟨t, -, ht⟩ := searchTargets_some w _ _ v hA
      exact ⟨h1.symm, tryTarget_ne_empty w _ t v ht⟩
    | none =>
      simp only [hA] at h
      split_ifs at h with hgit
      · cases hB : searchTargets w (gitDirectory w (Abs w cwd).1) (seedTarget d.target) with
        | some v =>
          simp only [hB, Prod.mk.injEq, Option.some.injEq] at h
          obtain ⟨h1, h2, -⟩ := h
          subst h2
          obtain ⟨t, -, ht⟩ := searchTargets_some w _ _ v hB
          exact ⟨h1.symm, tryTarget_ne_empty w _ t v ht⟩
        | none => simp [hB] at h
      · simp at h

/-- Seeding a seeded target list changes nothing. -/
theorem seedTarget_idem (ts : List String) : seedTarget (seedTarget ts) = seedTarget ts := by
  unfold seedTarget
  split_ifs <;> simp_all

/-- C5: in the tree `/repo/.git`, `/repo/src`, `/repo/testdata/x.json` with working directory
`/repo/src` and candidate "testdata", `Find` fails with the not-exist error when no repository
root is resolved, although the parent of the working directory holds `testdata`; with the root
`/repo` resolved the working-directory phase still finds nothing and the path `/repo/testdata` is
produced by the repository-root phase. -/
theorem C5_Find_does_not_search_ancestors :
    (statOf repoPaths "/repo/testdata") = .ok { name := "testdata", isDir := true } ∧
      Dir "/repo/src" = "/repo" ∧
      Find (worldOf "/repo/src" none repoPaths) (some (New ["testdata"])) =
        (some (New ["testdata"]), "", some GoError.ErrNotExist) ∧
      searchTargets (worldOf "/repo/src" (some "/repo") repoPaths) "/repo/src" ["testdata"] = none ∧
      Find (worldOf "/repo/src" (some "/repo") repoPaths) (some (New ["testdata"])) =
        (some { target := ["testdata"], qualified := "/repo/testdata" }, "/repo/testdata", none) := by
  decide

/-- C6: with a directory `/w/testdata` that holds a regular file named `testdata`, `Find` from
`/w` returns `/w/testdata/testdata` without error and caches it, and that path is a regular file,
not a directory. -/
theorem C6_Find_returns_regular_file :
    Find (worldOf "/w" none nestedFilePaths) (some (New [])) =
        (some { target := ["testdata"], qualified := "/w/testdata/testdata" },
          "/w/testdata/testdata", none) ∧
      (worldOf "/w" none nestedFilePaths).stat "/w/testdata/testdata" =
        .ok { name := "testdata", isDir := false } := by
  decide

/-- C7 as stated fails: after a successful `Find` in `/w`, a second `Find` on the same `Data`
run after `/w/testdata` was removed fails with the not-exist error instead of returning the
cached path. -/
theorem C7_second_Find_searches_again :
    Find (worldOf "/w" none plainPaths) (some (New [])) =
        (some { target := ["testdata"], qualified := "/w/testdata" }, "/w/testdata", none) ∧
      Find (worldOf "/w" none removedPaths)
          (Find (worldOf "/w" none plainPaths) (some (New []))).1 =
        (some { target := ["testdata"], qualified := "/w/testdata" }, "",
          some GoError.ErrNotExist) := by
  decide

/-- C7 amended: `Find` does not read the cached path: on every filesystem state, what it
returns is the same whatever the cached path is, so every call searches again. When `Find`
succeeds with a path, that path is not empty and is the cached resolution; a second `Find` on the
same `Data` against the same state returns it again with no error; a second `Find` that fails
against another state returns the empty path and leaves it cached. Only `Walk` reuses the cached
path: once it is set, `Walk` hands it to `filepath.Walk` without calling `Find`. -/
theorem C7_Find_twice_same_world (w : World) (d d1 : Data) (p : String)
    (h : Find w (some d) = (some d1, p, none)) :
    Find w (some d1) = (some d1, p, none) ∧ d1.qualified = p ∧ p ≠ "" ∧
      (∀ (w2 : World) (ts : List String) (q q1 : String),
        (Find w2 (some { target := ts, qualified := q })).2 =
          (Find w2 (some { target := ts, qualified := q1 })).2) ∧
      (∀ (w2 : World) (d2 : Data) (v : String) (e : GoError),
        Find w2 (some d1) = (some d2, v, some e) → d2.qualified = p ∧ v = "") ∧
      (∀ w2 : World, Walk w2 (some d1) = (some d1, filepathWalk w2 p walkFn [])) := by
  obtain ⟨hd1, hp⟩ := Find_success_cached w d d1 p h
  have hq : d1.qualified = p := by rw [hd1]
  have hsame : Find w (some d1) = (some d1, p, none) := by
    simp only [Find, Data.Find] at h ⊢
    cases hg : w.getwd with
    | error e => simp [hg] at h
    | ok cwd =>
      simp only [hg] at h ⊢
      cases hA : searchTargets w (Abs w cwd).1 (seedTarget d.target) with
      | some v =>
        simp only [hA, Prod.mk.injEq, Option.some.injEq] at h
        obtain ⟨h1, h2, -⟩ := h
        subst h2
        subst h1
        simp [seedTarget_idem, hA]
      | none =>
        simp only [hA] at h
        split_ifs at h with hgit
        · cases hB : searchTargets w (gitDirectory w (Abs w cwd).1) (seedTarget d.target) with
          | some v =>
            simp only [hB, Prod.mk.injEq, Option.some.injEq] at h
            obtain ⟨h1, h2, -⟩ := h
            subst h2
            subst h1
            simp [seedTarget_idem, hA, hB, hgit]
          | none => simp [hB] at h
        · simp at h
  refine ⟨hsame, hq, hp, fun w2 ts q q1 => (Find_ignores_qualified w2 ts q q1).1,
    fun w2 d2 v e hf => ?_, fun w2 => ?_⟩
  · have := Find_failure_keeps_qualified w2 d1 d2 v e hf
    rw [hq] at this
    exact this
  · have := Walk_uses_cache w2 d1 (by rw [hq]; exact hp)
    rw [hq] at this
    exact this

/-- Witness for the amended C7 in the working directory `/w` holding `testdata`: the first
`Find` succeeds with `/w/testdata`, and the conclusions hold of the `Data` it leaves. -/
theorem C7_Find_twice_same_world_witness :
    Find (worldOf "/w" none plainPaths) (some (New [])) =
        (some { target := ["testdata"], qualified := "/w/testdata" }, "/w/testdata", none) ∧
      (Find (worldOf "/w" none plainPaths)
            (some { target := ["testdata"], qualified := "/w/testdata" }) =
          (some { target := ["testdata"], qualified := "/w/testdata" }, "/w/testdata", none) ∧
        ({ target := ["testdata"], qualified := "/w/testdata" } : Data).qualified =
          "/w/testdata" ∧
        "/w/testdata" ≠ "" ∧
        (∀ (w2 : World) (ts : List String) (q q1 : String),
          (Find w2 (some { target := ts, qualified := q })).2 =
            (Find w2 (some { target := ts, qualified := q1 })).2) ∧
        (∀ (w2 : World) (d2 : Data) (v : String) (e : GoError),
          Find w2 (some { target := ["testdata"], qualified := "/w/testdata" }) =
            (some d2, v, some e) → d2.qualified = "/w/testdata" ∧ v = "") ∧
        (∀ w2 : World,
          Walk w2 (some { target := ["testdata"], qualified := "/w/testdata" }) =
            (some { target := ["testdata"], qualified := "/w/testdata" },
              filepathWalk w2 "/w/testdata" walkFn []))) :=
  ⟨by decide, C7_Find_twice_same_world (worldOf "/w" none plainPaths) (New [])
    { target := ["testdata"], qualified := "/w/testdata" } "/w/testdata" (by decide)⟩

/-- A target is skipped when the path it names below the anchor is not a directory. -/
theorem tryTarget_none_of_not_dir (w : World) (anchor t : String)
    (h : ∀ info : FileInfo, w.stat (Join [anchor, TrimSpace t]) = .ok info → info.isDir = false) :
    tryTarget w anchor t = none := by
  unfold tryTarget
  simp only
  cases hs : w.stat (Join [anchor, TrimSpace t]) with
  | error e => simp
  | ok info => simp [h info hs]

/-- C8: on a non-nil `Data`, when the working directory is available, no directory named by a
candidate exists at the working directory or at any of its ancestors, and no repository root is
resolved, `Find` returns the empty path with the not-exist error and leaves the cached
resolution as it was. -/
theorem C8_Find_not_exist (w : World) (d : Data) (cwd : String)
    (hcwd : w.getwd = .ok cwd)
    (hnone : ∀ t ∈ seedTarget d.target, ∀ (n : Nat) (info : FileInfo),
      w.stat (Join [Dir^[n] (Abs w cwd).1, TrimSpace t]) = .ok info → info.isDir = false)
    (hroot : ∃ e, w.root (Abs w cwd).1 = .error e) :
    Find w (some d) =
        (some { target := seedTarget d.target, qualified := d.qualified }, "",
          some GoError.ErrNotExist) ∧
      (Find w (some d)).1.map Data.qualified = some d.qualified := by
  have hA : searchTargets w (Abs w cwd).1 (seedTarget d.target) = none :=
    searchTargets_none w _ _ (fun t ht =>
      tryTarget_none_of_not_dir w _ t (fun info hs => hnone t ht 0 info hs))
  obtain ⟨e, he⟩ := hroot
  have hgit : gitDirectory w (Abs w cwd).1 = "" := by simp [gitDirectory, he]
  have hF : Find w (some d) =
      (some { target := seedTarget d.target, qualified := d.qualified }, "",
        some GoError.ErrNotExist) := by
    simp [Find, Data.Find, hcwd, hA, hgit]
  exact ⟨hF, by rw [hF]; rfl⟩

/-- The ancestors of `/tmp/empty`. -/
theorem iterate_Dir_tmp_empty (n : Nat) :
    Dir^[n] "/tmp/empty" = "/tmp/empty" ∨ Dir^[n] "/tmp/empty" = "/tmp" ∨
      Dir^[n] "/tmp/empty" = "/" := by
  induction n with
  | zero => exact Or.inl rfl
  | succ n ih =>
    rw [Function.iterate_succ_apply']
    rcases ih with h | h | h <;> rw [h]
    · exact Or.inr (Or.inl (by decide))
    · exact Or.inr (Or.inr (by decide))
    · exact Or.inr (Or.inr (by decide))

/-- Witness for C8: the working directory `/tmp/empty`, no `testdata` anywhere above it and no
repository. -/
theorem C8_Find_not_exist_witness :
    Find (worldOf "/tmp/empty" none emptyPaths) (some (New [])) =
        (some { target := ["testdata"], qualified := "" }, "", some GoError.ErrNotExist) ∧
      (Find (worldOf "/tmp/empty" none emptyPaths) (some (New []))).1.map Data.qualified =
        some "" :=
  C8_Find_not_exist (worldOf "/tmp/empty" none emptyPaths) (New []) "/tmp/empty" rfl
    (by
      intro t ht n info
      have ht' : t = "testdata" := by
        have : seedTarget (New []).target = ["testdata"] := by decide
        rw [this] at ht
        simpa using ht
      subst ht'
      have hAbs : (Abs (worldOf "/tmp/empty" none emptyPaths) "/tmp/empty").1 = "/tmp/empty" := by
        decide
      rw [hAbs]
      rcases iterate_Dir_tmp_empty n with h | h | h <;> rw [h] <;> intro hs
      · have he : (worldOf "/tmp/empty" none emptyPaths).stat
            (Join ["/tmp/empty", TrimSpace "testdata"]) = .error GoError.ErrNotExist := by decide
        rw [he] at hs
        cases hs
      · have he : (worldOf "/tmp/empty" none emptyPaths).stat
            (Join ["/tmp", TrimSpace "testdata"]) = .error GoError.ErrNotExist := by decide
        rw [he] at hs
        cases hs
      · have he : (worldOf "/tmp/empty" none emptyPaths).stat
            (Join ["/", TrimSpace "testdata"]) = .error GoError.ErrNotExist := by decide
        rw [he] at hs
        cases hs)
    ⟨GoError.other "repository does not exist", rfl⟩

/-- C9: the working-directory phase comes first and, within a phase, the candidates are tried
in list order: `Find` returns the resolution of the first candidate that resolves at the working
directory, whatever the repository root would give; only when no candidate resolves there is the
result that of the first candidate resolving at the repository root, and the not-exist error
when there is no root or no candidate resolves there either. -/
theorem C9_Find_phase_and_candidate_order (w : World) (d : Data) (cwd : String)
    (hcwd : w.getwd = .ok cwd) :
    (∀ (i : Nat) (t v : String), (seedTarget d.target)[i]? = some t →
        tryTarget w (Abs w cwd).1 t = some v →
        (∀ j t', j < i → (seedTarget d.target)[j]? = some t' →
          tryTarget w (Abs w cwd).1 t' = none) →
        Find w (some d) = (some { target := seedTarget d.target, qualified := v }, v, none)) ∧
      ((∀ t ∈ seedTarget d.target, tryTarget w (Abs w cwd).1 t = none) →
        (∀ (i : Nat) (t v : String), gitDirectory w (Abs w cwd).1 ≠ "" →
          (seedTarget d.target)[i]? = some t →
          tryTarget w (gitDirectory w (Abs w cwd).1) t = some v →
          (∀ j t', j < i → (seedTarget d.target)[j]? = some t' →
            tryTarget w (gitDirectory w (Abs w cwd).1) t' = none) →
          Find w (some d) = (some { target := seedTarget d.target, qualified := v }, v, none)) ∧
        ((gitDirectory w (Abs w cwd).1 = "" ∨
            ∀ t ∈ seedTarget d.target, tryTarget w (gitDirectory w (Abs w cwd).1) t = none) →
          Find w (some d) =
            (some { target := seedTarget d.target, qualified := d.qualified }, "",
              some GoError.ErrNotExist))) := by
  refine ⟨fun i t v hi hv hbefore => ?_, fun hA => ⟨fun i t v hgit hi hv hbefore => ?_, fun h => ?_⟩⟩
  · have h1 := searchTargets_first w _ _ i t v hi hv hbefore
    simp [Find, Data.Find, hcwd, h1]
  · have h0 := searchTargets_none w _ _ hA
    have h1 := searchTargets_first w _ _ i t v hi hv hbefore
    simp [Find, Data.Find, hcwd, h0, h1, hgit]
  · have h0 := searchTargets_none w _ _ hA
    rcases h with h | h
    · simp [Find, Data.Find, hcwd, h0, h]
    · have h1 := searchTargets_none w _ _ h
      simp [Find, Data.Find, hcwd, h0, h1]

/-- Witness for C9: from `/repo/src` with the candidates "fixtures" and "testdata", `Find`
returns `/repo/src/testdata`, found at the working directory by the second candidate, although the
first candidate resolves at the repository root `/repo`. -/
theorem C9_Find_phase_and_candidate_order_witness :
    tryTarget (worldOf "/repo/src" (some "/repo") twoPhasePaths) "/repo" "fixtures" =
        some "/repo/fixtures" ∧
      Find (worldOf "/repo/src" (some "/repo") twoPhasePaths)
          (some (New ["fixtures", "testdata"])) =
        (some { target := ["fixtures", "testdata"], qualified := "/repo/src/testdata" },
          "/repo/src/testdata", none) :=
  ⟨by decide,
    (C9_Find_phase_and_candidate_order (worldOf "/repo/src" (some "/repo") twoPhasePaths)
      (New ["fixtures", "testdata"]) "/repo/src" rfl).1 1 "testdata" "/repo/src/testdata"
      (by decide) (by decide)
      (by
        intro j t' hj ht'
        have hj0 : j = 0 := by omega
        subst hj0
        have : t' = "fixtures" := by
          have h0 : (seedTarget (New ["fixtures", "testdata"]).target)[0]? = some "fixtures" := by
            decide
          rw [h0] at ht'
          exact (Option.some.inj ht').symm
        subst this
        decide)⟩

/-! ## Theorems: `Walk` -/

mutual
/-- Walking a readable entry appends the descriptors of its files, in order, without error. -/
theorem walk_readable (path : String) (nodes : List Descriptor) :
    ∀ n : Node, n.readable = true →
      walk walkFn path n nodes = (nodes ++ (n.files path).map descriptorOf, none)
  | .file name, _ => by
    simp [walk, walkFn, Node.files, descriptorOf, FileType.Is, Is.Directory, Directory]
  | .dir name entries, h => by
    have h1 : readableEntries entries = true := by simpa [Node.readable] using h
    have h2 := walkEntries_readable path nodes entries h1
    simp [walk, walkFn, Node.files, FileType.Is, Is.Directory, Directory, h2]
  | .unreadable _ _, h => by simp [Node.readable] at h
  | .broken _ _, h => by simp [Node.readable] at h
/-- Walking readable entries appends the descriptors of their files, in order, without error. -/
theorem walkEntries_readable (path : String) (nodes : List Descriptor) :
    ∀ ns : List Node, readableEntries ns = true →
      walkEntries walkFn path ns nodes =
        (nodes ++ (filesOfEntries path ns).map descriptorOf, none)
  | [], _ => by simp [walkEntries, filesOfEntries]
  | n :: ns, h => by
    have h1 : n.readable = true ∧ readableEntries ns = true := by
      simpa [readableEntries] using h
    have h2 := walk_readable (Join [path, n.name]) nodes n h1.1
    have h3 := walkEntries_readable path
      (nodes ++ (n.files (Join [path, n.name])).map descriptorOf) ns h1.2
    cases n with
    | broken _ _ => simp [Node.readable] at h1
    | file name => simp [walkEntries, filesOfEntries, h2, h3]
    | dir name entries => simp [walkEntries, filesOfEntries, h2, h3]
    | unreadable _ _ => simp [Node.readable] at h1
end

mutual
/-- Below a readable entry, the files and the directories together are all the entries. -/
theorem files_length_add_countDirs (path : String) :
    ∀ n : Node, n.readable = true → (n.files path).length + n.countDirs = n.countEntries
  | .file _, _ => by simp [Node.files, Node.countDirs, Node.countEntries]
  | .dir _ entries, h => by
    have h1 : readableEntries entries = true := by simpa [Node.readable] using h
    have h2 := filesOfEntries_length_add_countDirs path entries h1
    simp only [Node.files, Node.countDirs, Node.countEntries]
    omega
  | .unreadable _ _, h => by simp [Node.readable] at h
  | .broken _ _, h => by simp [Node.readable] at h
/-- Below readable entries, the files and the directories together are all the entries. -/
theorem filesOfEntries_length_add_countDirs (path : String) :
    ∀ ns : List Node, readableEntries ns = true →
      (filesOfEntries path ns).length + countDirsOfEntries ns = countEntriesOf ns
  | [], _ => by simp [filesOfEntries, countDirsOfEntries, countEntriesOf]
  | n :: ns, h => by
    have h1 : n.readable = true ∧ readableEntries ns = true := by
      simpa [readableEntries] using h
    have h2 := files_length_add_countDirs (Join [path, n.name]) n h1.1
    have h3 := filesOfEntries_length_add_countDirs path ns h1.2
    simp only [filesOfEntries, countDirsOfEntries, countEntriesOf, List.length_append]
    omega
end

/-- C10: on a `Data` whose root is already resolved and whose tree is traversed without I/O
error, `Walk` succeeds and returns, in traversal order, exactly one `Descriptor` for every entry
that is not a directory and none for a directory (the root included): `Path` is the traversal
path of the entry, `Name` its name and `Type` the classification of the extension of the name;
the descriptors and the directories together account for every entry. -/
theorem C10_Walk_descriptors (w : World) (d : Data) (hq : d.qualified ≠ "")
    (hr : (w.tree d.qualified).readable = true) :
    Walk w (some d) =
        (some d, ((w.tree d.qualified).files d.qualified).map
          (fun e => { Path := e.1, Name := e.2, Type_ := Extension (Ext e.2) }), none) ∧
      (Walk w (some d)).2.1.length + (w.tree d.qualified).countDirs =
        (w.tree d.qualified).countEntries := by
  have hW : Walk w (some d) =
      (some d, ((w.tree d.qualified).files d.qualified).map descriptorOf, none) := by
    have h := walk_readable d.qualified [] (w.tree d.qualified) hr
    simp [Walk, hq, filepathWalk, h]
  refine ⟨hW, ?_⟩
  rw [hW]
  simpa using files_length_add_countDirs d.qualified (w.tree d.qualified) hr

/-- Witness for C10: a root holding `a.yaml`, `b.txt` and `nested/c.json` gives exactly three
descriptors, typed YAML, Text and JSON, and none for `nested` or the root. -/
theorem C10_Walk_descriptors_witness :
    Walk exampleWorld (some { target := ["testdata"], qualified := "/repo/testdata" }) =
      (some { target := ["testdata"], qualified := "/repo/testdata" },
        [{ Path := "/repo/testdata/a.yaml", Name := "a.yaml", Type_ := YAML },
          { Path := "/repo/testdata/b.txt", Name := "b.txt", Type_ := Text },
          { Path := "/repo/testdata/nested/c.json", Name := "c.json", Type_ := JSON }],
        none) :=
  (C10_Walk_descriptors exampleWorld { target := ["testdata"], qualified := "/repo/testdata" }
    (by decide) (by decide)).1.trans (by decide)

/-! ## Theorems: the loop of `find` ends within its rounds -/

/-- Splitting never yields an empty list of elements. -/
theorem splitSep_ne_nil (cs : List Char) : splitSep cs ≠ [] := by
  cases cs with
  | nil => simp [splitSep]
  | cons c cs =>
    unfold splitSep
    split_ifs
    · simp
    · split <;> simp

/-- The elements of a path with their separators weigh one more than the path is long. -/
theorem elemsWeight_splitSep (cs : List Char) : elemsWeight (splitSep cs) = cs.length + 1 := by
  induction cs with
  | nil => simp [splitSep, elemsWeight]
  | cons c cs ih =>
    unfold splitSep
    split_ifs with hc
    · simp only [elemsWeight, List.map_cons, List.sum_cons, List.length_nil, List.length_cons] at ih ⊢
      omega
    · cases hs : splitSep cs with
      | nil => exact absurd hs (splitSep_ne_nil cs)
      | cons e es =>
        rw [hs] at ih
        simp only [elemsWeight, List.map_cons, List.sum_cons, List.length_cons] at ih ⊢
        omega

/-- A trailing separator adds one empty element. -/
theorem splitSep_append_sep (cs : List Char) :
    splitSep (cs ++ [Separator]) = splitSep cs ++ [[]] := by
  induction cs with
  | nil => simp [splitSep]
  | cons c cs ih =>
    simp only [List.cons_append, splitSep]
    split_ifs with hc
    · simp [ih]
    · have ih' : splitSep (cs.append [Separator]) = splitSep cs ++ [[]] := ih
      rw [ih']
      cases hs : splitSep cs with
      | nil => exact absurd hs (splitSep_ne_nil cs)
      | cons e es => simp

/-- Written out, kept elements are one shorter than their weight. -/
theorem joinSep_length (es : List (List Char)) (h : es ≠ []) :
    (joinSep es).length + 1 = elemsWeight es := by
  induction es with
  | nil => exact absurd rfl h
  | cons e es ih =>
    cases es with
    | nil => simp [joinSep, elemsWeight]
    | cons e' es' =>
      have := ih (by simp)
      simp only [joinSep, elemsWeight, List.map_cons, List.sum_cons, List.length_append,
        List.length_cons] at this ⊢
      omega

/-- Written out, kept elements are never longer than their weight. -/
theorem joinSep_length_le (es : List (List Char)) : (joinSep es).length ≤ elemsWeight es - 1 := by
  by_cases h : es = []
  · subst h; simp [joinSep, elemsWeight]
  · have := joinSep_length es h
    omega

/-- The weight does not depend on the order of the elements. -/
theorem elemsWeight_reverse (es : List (List Char)) : elemsWeight es.reverse = elemsWeight es := by
  simp [elemsWeight, List.sum_reverse]

/-- A step on a rooted path adds at most the element it reads. -/
theorem cleanStepRooted_weight (out : List (List Char)) (e : List Char) :
    elemsWeight (cleanStepRooted out e) ≤ elemsWeight out + (e.length + 1) := by
  unfold cleanStepRooted
  split_ifs
  · omega
  · cases out with
    | nil => simp [elemsWeight]
    | cons a as => simp [elemsWeight]; omega
  · simp [elemsWeight]; omega

/-- A step on a path that is not rooted adds at most the element it reads. -/
theorem cleanStepRelative_weight (out : List (List Char)) (e : List Char) :
    elemsWeight (cleanStepRelative out e) ≤ elemsWeight out + (e.length + 1) := by
  unfold cleanStepRelative
  split_ifs
  · omega
  · cases out with
    | nil => simp [elemsWeight]
    | cons a as =>
      simp only
      split_ifs
      · simp [elemsWeight]; omega
      · simp [elemsWeight]; omega
  · simp [elemsWeight]; omega

/-- The scan keeps no more than it reads. -/
theorem foldl_step_weight (step : List (List Char) → List Char → List (List Char))
    (hstep : ∀ out e, elemsWeight (step out e) ≤ elemsWeight out + (e.length + 1))
    (es : List (List Char)) :
    ∀ out, elemsWeight (es.foldl step out) ≤ elemsWeight out + elemsWeight es := by
  induction es with
  | nil => intro out; simp [elemsWeight]
  | cons e es ih =>
    intro out
    have h1 := ih (step out e)
    have h2 := hstep out e
    simp only [List.foldl_cons]
    simp only [elemsWeight, List.map_cons, List.sum_cons] at h1 h2 ⊢
    omega

/-- `Clean` never returns the empty path. -/
theorem cleanChars_ne_nil (x : List Char) : cleanChars x ≠ [] := by
  cases x with
  | nil => simp [cleanChars]
  | cons c cs =>
    simp only [cleanChars]
    split_ifs <;> simp_all

/-- `Clean` does not lengthen a path that is not empty. -/
theorem cleanChars_length_le (x : List Char) (hx : x ≠ []) :
    (cleanChars x).length ≤ x.length := by
  cases x with
  | nil => exact absurd rfl hx
  | cons c cs =>
    simp only [cleanChars]
    split_ifs with hc hout
    · have h1 := foldl_step_weight cleanStepRooted cleanStepRooted_weight (splitSep cs) []
      have h2 := joinSep_length_le ((splitSep cs).foldl cleanStepRooted []).reverse
      rw [elemsWeight_reverse] at h2
      rw [elemsWeight_splitSep] at h1
      simp only [elemsWeight, List.map_nil, List.sum_nil, List.length_cons] at h1 h2 ⊢
      omega
    · simp
    · have h1 := foldl_step_weight cleanStepRelative cleanStepRelative_weight
        (splitSep (c :: cs)) []
      have hne : ((splitSep (c :: cs)).foldl cleanStepRelative []).reverse ≠ [] := by
        intro h0
        rw [h0] at hout
        exact hout rfl
      have h2 := joinSep_length _ hne
      rw [elemsWeight_reverse] at h2
      rw [elemsWeight_splitSep] at h1
      simp only [elemsWeight, List.map_nil, List.sum_nil, List.length_cons] at h1 h2 ⊢
      omega

/-- `Clean` ignores a trailing separator of a path that has more than that separator. -/
theorem cleanChars_append_sep (y : List Char) (hy : y ≠ []) :
    cleanChars (y ++ [Separator]) = cleanChars y := by
  cases y with
  | nil => exact absurd rfl hy
  | cons c cs =>
    simp only [List.cons_append, cleanChars]
    have hr : (splitSep (cs ++ [Separator])).foldl cleanStepRooted [] =
        (splitSep cs).foldl cleanStepRooted [] := by
      rw [splitSep_append_sep, List.foldl_append]
      simp [cleanStepRooted]
    have hn : (splitSep (c :: (cs ++ [Separator]))).foldl cleanStepRelative [] =
        (splitSep (c :: cs)).foldl cleanStepRelative [] := by
      have := splitSep_append_sep (c :: cs)
      simp only [List.cons_append] at this
      rw [this, List.foldl_append]
      simp [cleanStepRelative]
    rw [hr, hn]

/-- Every path measures at least two. -/
theorem two_le_pathMeasure (p : String) : 2 ≤ pathMeasure p := by
  unfold pathMeasure
  split_ifs with h0 h1
  · omega
  · subst h1; decide
  · have : p.length ≠ 0 := by
      intro hl
      apply h0
      rcases p with ⟨l⟩
      have : l = [] := List.length_eq_zero.mp hl
      subst this
      rfl
    omega

/-- A step of `find` to a parent that differs from the current path decreases the measure. -/
theorem pathMeasure_Dir_lt (p : String) (h : Dir p ≠ p) : pathMeasure (Dir p) < pathMeasure p := by
  rcases p with ⟨l⟩
  have hDir : Dir ⟨l⟩ = ⟨cleanChars (l.rdropWhile (· != Separator))⟩ := rfl
  have hmeas : ∀ q : List Char, q ≠ [] → pathMeasure ⟨q⟩ ≤ 2 * q.length + 1 := by
    intro q hq
    unfold pathMeasure
    have : (⟨q⟩ : String) ≠ "" := by
      intro h0
      apply hq
      exact congrArg String.data h0
    simp only [this, if_false]
    show 2 * q.length + _ ≤ _
    split_ifs <;> omega
  have hlow : ∀ q : List Char, 2 ≤ q.length → 2 * q.length ≤ pathMeasure ⟨q⟩ := by
    intro q hq
    unfold pathMeasure
    have : (⟨q⟩ : String) ≠ "" := by
      intro h0
      have h1 : q = [] := congrArg String.data h0
      rw [h1] at hq
      simp at hq
    simp only [this, if_false]
    show 2 * q.length ≤ 2 * q.length + _
    omega
  by_cases hpre : l.rdropWhile (· != Separator) = []
  · rw [hDir, hpre]
    have hd : (⟨cleanChars []⟩ : String) = "." := rfl
    rw [hd]
    have hne : (⟨l⟩ : String) ≠ "." := by
      intro h0
      apply h
      rw [hDir, hpre, hd, h0]
    have h2 : pathMeasure "." = 2 := by decide
    rw [h2]
    unfold pathMeasure
    split_ifs with h0
    · omega
    · have : (String.mk l).length ≠ 0 := by
        intro hl
        apply h0
        have : l = [] := List.length_eq_zero.mp hl
        subst this
        rfl
      omega
  · have hlast := List.rdropWhile_last_not (· != Separator) l hpre
    have hlast' : (l.rdropWhile (· != Separator)).getLast hpre = Separator := by
      simpa using hlast
    have hsplit := List.dropLast_append_getLast hpre
    rw [hlast'] at hsplit
    have hprefix : (l.rdropWhile (· != Separator)).length ≤ l.length :=
      (List.rdropWhile_prefix (· != Separator) l).length_le
    have hlen : (l.rdropWhile (· != Separator)).length =
        (l.rdropWhile (· != Separator)).dropLast.length + 1 := by
      conv_lhs => rw [← hsplit]
      simp
    by_cases hy : (l.rdropWhile (· != Separator)).dropLast = []
    · have hpre1 : l.rdropWhile (· != Separator) = [Separator] := by
        rw [← hsplit, hy]; rfl
      have hd : Dir ⟨l⟩ = "/" := by rw [hDir, hpre1]; decide
      rw [hd]
      have h3 : pathMeasure "/" = 3 := by decide
      rw [h3]
      have hl2 : 2 ≤ l.length := by
        by_contra hlt
        have hl1 : l.length = 1 := by
          have : 1 ≤ l.length := by rw [hpre1] at hprefix; simpa using hprefix
          omega
        have hpf := List.rdropWhile_prefix (· != Separator) l
        rw [hpre1] at hpf
        obtain ⟨t, ht⟩ := hpf
        have : t = [] := by
          have := congrArg List.length ht
          simp at this
          apply List.length_eq_zero.mp
          omega
        subst this
        apply h
        rw [hd, ← ht]
        rfl
      have := hlow l hl2
      omega
    · have hc := cleanChars_append_sep _ hy
      rw [hsplit] at hc
      have hle := cleanChars_length_le _ hy
      rw [← hc] at hle
      have hne := cleanChars_ne_nil (l.rdropWhile (· != Separator))
      have h1 := hmeas _ hne
      have hl2 : 2 ≤ l.length := by
        have : 1 ≤ (l.rdropWhile (· != Separator)).dropLast.length := by
          rcases hq : (l.rdropWhile (· != Separator)).dropLast with _ | ⟨a, as⟩
          · exact absurd hq hy
          · simp
        omega
      have h2 := hlow l hl2
      rw [hDir]
      omega

/-- The loop of `find` returns within any number of rounds that covers the measure of the
path it is at. -/
theorem findLoop_isSome (w : World) (desired : String) :
    ∀ (n : Nat) (current : String), pathMeasure current ≤ n →
      (findLoop w desired n current).isSome = true := by
  intro n
  induction n with
  | zero =>
    intro current h
    have := two_le_pathMeasure current
    omega
  | succ n ih =>
    intro current h
    unfold findLoop
    simp only
    cases w.stat (Join [current, desired]) with
    | ok info => rfl
    | error e =>
      simp only
      split_ifs with hp
      · rfl
      · have := pathMeasure_Dir_lt current hp
        exact ih _ (by omega)

/-- The rounds granted to `find` always suffice: its loop ends by returning a path on which
`os.Stat` succeeded or, at a path that is its own parent, the empty string. -/
theorem findLoop_fuel_suffices (w : World) (start desired : String) :
    findLoop w desired (findFuel start) start = some (find w start desired) := by
  have h : pathMeasure start ≤ findFuel start := by
    unfold pathMeasure findFuel
    split_ifs <;> omega
  have hs := findLoop_isSome w desired (findFuel start) start h
  unfold find
  cases hf : findLoop w desired (findFuel start) start with
  | none => rw [hf] at hs; cases hs
  | some v => rfl

/-! ## Theorems: `Clean` keeps a normal form -/

/-- `Clean` written as its kept elements rendered. -/
theorem cleanChars_eq_render (y : List Char) :
    cleanChars y = render (rootedChars y) (stackOf y).reverse := by
  cases y with
  | nil => simp [cleanChars, render, rootedChars, stackOf, joinSep]
  | cons c cs =>
    by_cases hc : c = Separator
    · simp [cleanChars, render, rootedChars, stackOf, hc]
    · simp [cleanChars, render, rootedChars, stackOf, hc]

/-- Splitting at a separator splits both sides. -/
theorem splitSep_append_cons (a b : List Char) :
    splitSep (a ++ Separator :: b) = splitSep a ++ splitSep b := by
  induction a with
  | nil => simp [splitSep]
  | cons c a ih =>
    simp only [List.cons_append, splitSep]
    have ih' : splitSep (a.append (Separator :: b)) = splitSep a ++ splitSep b := ih
    split_ifs with hc
    · simp [ih]
    · rw [ih']
      cases hs : splitSep a with
      | nil => exact absurd hs (splitSep_ne_nil a)
      | cons e es => simp

/-- A path without separator is a single element. -/
theorem splitSep_of_sepFree (c : List Char) (h : Separator ∉ c) : splitSep c = [c] := by
  induction c with
  | nil => rfl
  | cons x c ih =>
    have hx : x ≠ Separator := fun h0 => h (by simp [h0])
    have hc : Separator ∉ c := fun h0 => h (List.mem_cons_of_mem _ h0)
    simp [splitSep, hx, ih hc]

/-- The elements of a path contain no separator. -/
theorem sepFree_of_mem_splitSep (cs : List Char) : ∀ e ∈ splitSep cs, Separator ∉ e := by
  induction cs with
  | nil => simp [splitSep]
  | cons c cs ih =>
    intro e he
    unfold splitSep at he
    split_ifs at he with hc
    · rcases List.mem_cons.mp he with h | h
      · subst h; simp
      · exact ih e h
    · cases hs : splitSep cs with
      | nil => exact absurd hs (splitSep_ne_nil cs)
      | cons e' es =>
        rw [hs] at he ih
        rcases List.mem_cons.mp he with h | h
        · subst h
          have := ih e' (List.mem_cons_self _ _)
          intro hmem
          rcases List.mem_cons.mp hmem with h1 | h1
          · exact hc h1.symm
          · exact this h1
        · exact ih e (List.mem_cons_of_mem _ h)

/-- Writing out separator-free elements and splitting again gives the elements back. -/
theorem splitSep_joinSep (S : List (List Char)) (hS : S ≠ [])
    (hfree : ∀ e ∈ S, Separator ∉ e) : splitSep (joinSep S) = S := by
  induction S with
  | nil => exact absurd rfl hS
  | cons e S ih =>
    cases S with
    | nil => simpa [joinSep] using splitSep_of_sepFree e (hfree e (List.mem_cons_self _ _))
    | cons e' S' =>
      have h1 := ih (by simp) (fun x hx => hfree x (List.mem_cons_of_mem _ hx))
      simp only [joinSep] at h1 ⊢
      rw [splitSep_append_cons, h1, splitSep_of_sepFree e (hfree e (List.mem_cons_self _ _))]
      rfl

/-- A step on an element kept as it is pushes it, rooted or not. -/
theorem cleanStep_real (out : List (List Char)) (e : List Char) (he : realElem e) :
    cleanStepRooted out e = e :: out ∧ cleanStepRelative out e = e :: out := by
  obtain ⟨h1, h2, h3, -⟩ := he
  simp [cleanStepRooted, cleanStepRelative, h1, h2, h3]

/-- Scanning elements that are all kept as they are pushes each of them. -/
theorem foldl_cleanStep_reals (S : List (List Char)) (hS : ∀ e ∈ S, realElem e) :
    ∀ out, S.foldl cleanStepRooted out = S.reverse ++ out ∧
      S.foldl cleanStepRelative out = S.reverse ++ out := by
  induction S with
  | nil => intro out; simp
  | cons e S ih =>
    intro out
    have he := cleanStep_real out e (hS e (List.mem_cons_self _ _))
    have := ih (fun x hx => hS x (List.mem_cons_of_mem _ hx)) (e :: out)
    simp only [List.foldl_cons, he.1, he.2, this, List.reverse_cons, List.append_assoc,
      List.singleton_append, and_self]

/-- A step on a rooted path keeps only elements that are kept as they are. -/
theorem cleanStepRooted_real (out : List (List Char)) (e : List Char)
    (hout : ∀ x ∈ out, realElem x) (he : Separator ∉ e) :
    ∀ x ∈ cleanStepRooted out e, realElem x := by
  unfold cleanStepRooted
  split_ifs with h1 h2
  · exact hout
  · intro x hx
    exact hout x (List.mem_of_mem_tail hx)
  · intro x hx
    rcases List.mem_cons.mp hx with h | h
    · subst h
      refine ⟨fun h0 => h1 (Or.inl h0), fun h0 => h1 (Or.inr h0), h2, he⟩
    · exact hout x h

/-- The scan of a rooted path keeps only elements that are kept as they are. -/
theorem foldl_cleanStepRooted_real (es : List (List Char)) (hes : ∀ e ∈ es, Separator ∉ e) :
    ∀ out, (∀ x ∈ out, realElem x) → ∀ x ∈ es.foldl cleanStepRooted out, realElem x := by
  induction es with
  | nil => intro out hout; simpa using hout
  | cons e es ih =>
    intro out hout
    simp only [List.foldl_cons]
    exact ih (fun x hx => hes x (List.mem_cons_of_mem _ hx)) _
      (cleanStepRooted_real out e hout (hes e (List.mem_cons_self _ _)))

/-- A step on a path that is not rooted keeps the shape: kept elements above a run of `..`. -/
theorem cleanStepRelative_normal (out : List (List Char)) (e : List Char)
    (hout : relNormal out) (he : Separator ∉ e) : relNormal (cleanStepRelative out e) := by
  obtain ⟨reals, k, hEq, hreal⟩ := hout
  unfold cleanStepRelative
  split_ifs with h1 h2
  · exact ⟨reals, k, hEq, hreal⟩
  · subst h2
    cases reals with
    | nil =>
      simp only [List.nil_append] at hEq
      cases k with
      | zero =>
        subst hEq
        exact ⟨[], 1, by simp [List.replicate], by simp⟩
      | succ k =>
        subst hEq
        simp only [List.replicate_succ, if_true]
        exact ⟨[], k + 2, by simp [List.replicate_succ], by simp⟩
    | cons r reals =>
      subst hEq
      have hr := hreal r (List.mem_cons_self _ _)
      simp only [List.cons_append, hr.2.2.1, if_false]
      exact ⟨reals, k, rfl, fun x hx => hreal x (List.mem_cons_of_mem _ hx)⟩
  · refine ⟨e :: reals, k, by simp [hEq], fun x hx => ?_⟩
    rcases List.mem_cons.mp hx with h | h
    · subst h
      exact ⟨fun h0 => h1 (Or.inl h0), fun h0 => h1 (Or.inr h0), h2, he⟩
    · exact hreal x h

/-- The scan of a path that is not rooted keeps the shape. -/
theorem foldl_cleanStepRelative_normal (es : List (List Char))
    (hes : ∀ e ∈ es, Separator ∉ e) :
    ∀ out, relNormal out → relNormal (es.foldl cleanStepRelative out) := by
  induction es with
  | nil => intro out hout; simpa using hout
  | cons e es ih =>
    intro out hout
    simp only [List.foldl_cons]
    exact ih (fun x hx => hes x (List.mem_cons_of_mem _ hx)) _
      (cleanStepRelative_normal out e hout (hes e (List.mem_cons_self _ _)))

/-- Scanning a run of `..` on top of a run of `..` keeps all of them. -/
theorem foldl_cleanStepRelative_dotdots (k : Nat) :
    ∀ j, (List.replicate k ['.', '.']).foldl cleanStepRelative (List.replicate j ['.', '.']) =
      List.replicate (j + k) ['.', '.'] := by
  induction k with
  | zero => intro j; simp
  | succ k ih =>
    intro j
    have hstep : cleanStepRelative (List.replicate j ['.', '.']) ['.', '.'] =
        List.replicate (j + 1) ['.', '.'] := by
      cases j with
      | zero => simp [cleanStepRelative, List.replicate]
      | succ j => simp [cleanStepRelative, List.replicate_succ]
    rw [List.replicate_succ, List.foldl_cons, hstep, ih (j + 1)]
    congr 1
    omega

/-- Scanning kept elements of the normal shape, first kept first, keeps exactly them. -/
theorem foldl_cleanStepRelative_of_normal (T : List (List Char)) (hT : relNormal T) :
    T.reverse.foldl cleanStepRelative [] = T := by
  obtain ⟨reals, k, hEq, hreal⟩ := hT
  subst hEq
  rw [List.reverse_append, List.reverse_replicate, List.foldl_append]
  have h1 := foldl_cleanStepRelative_dotdots k 0
  simp only [List.replicate_zero, Nat.zero_add] at h1
  rw [h1]
  have h2 := (foldl_cleanStep_reals reals.reverse
    (fun e he => hreal e (List.mem_reverse.mp he)) (List.replicate k ['.', '.'])).2
  rw [h2, List.reverse_reverse]

/-- The elements `Clean` keeps have the normal shape. -/
theorem stackOf_normal (y : List Char) : normalStack (rootedChars y) (stackOf y) := by
  cases y with
  | nil => exact ⟨[], 0, by simp [stackOf], by simp⟩
  | cons c cs =>
    by_cases hc : c = Separator
    · simp only [normalStack, rootedChars, stackOf, hc, beq_self_eq_true, if_true]
      exact foldl_cleanStepRooted_real _ (sepFree_of_mem_splitSep cs) [] (by simp)
    · have hb : (c == Separator) = false := by simpa using hc
      simp only [normalStack, rootedChars, stackOf, hc, hb, if_false]
      exact foldl_cleanStepRelative_normal _ (sepFree_of_mem_splitSep (c :: cs)) []
        ⟨[], 0, by simp, by simp⟩

/-- An element kept as it is on top of a normal shape is a normal shape. -/
theorem normalStack_cons (r : Bool) (T : List (List Char)) (c : List Char)
    (hT : normalStack r T) (hc : realElem c) : normalStack r (c :: T) := by
  cases r with
  | true =>
    simp only [normalStack, if_true] at hT ⊢
    intro e he
    rcases List.mem_cons.mp he with h | h
    · subst h; exact hc
    · exact hT e h
  | false =>
    simp only [normalStack] at hT ⊢
    obtain ⟨reals, k, hEq, hreal⟩ := hT
    refine ⟨c :: reals, k, by simp [hEq], fun e he => ?_⟩
    rcases List.mem_cons.mp he with h | h
    · subst h; exact hc
    · exact hreal e h

/-- The elements of a normal shape are not empty and contain no separator. -/
theorem normalStack_elems (r : Bool) (T : List (List Char)) (hT : normalStack r T) :
    ∀ e ∈ T, e ≠ [] ∧ Separator ∉ e := by
  cases r with
  | true =>
    simp only [normalStack, if_true] at hT
    exact fun e he => ⟨(hT e he).1, (hT e he).2.2.2⟩
  | false =>
    simp only [normalStack] at hT
    obtain ⟨reals, k, hEq, hreal⟩ := hT
    subst hEq
    intro e he
    rcases List.mem_append.mp he with h | h
    · exact ⟨(hreal e h).1, (hreal e h).2.2.2⟩
    · have := (List.mem_replicate.mp h).2
      subst this
      exact ⟨by simp, by decide⟩

/-- Written out, elements start with the first of them. -/
theorem joinSep_cons (e : List Char) (S : List (List Char)) :
    joinSep (e :: S) = e ++ (if S = [] then [] else Separator :: joinSep S) := by
  cases S with
  | nil => simp [joinSep]
  | cons e' S' => simp [joinSep]

/-- Written out, elements end with the last of them. -/
theorem joinSep_concat (S : List (List Char)) (c : List Char) :
    joinSep (S ++ [c]) = (if S = [] then [] else joinSep S ++ [Separator]) ++ c := by
  induction S with
  | nil => simp [joinSep]
  | cons e S ih =>
    cases S with
    | nil => simp [joinSep]
    | cons e' S' =>
      have ih' : joinSep (e' :: S'.append [c]) =
          (if e' :: S' = [] then [] else joinSep (e' :: S') ++ [Separator]) ++ c := ih
      simp only [List.cons_append, joinSep]
      rw [ih']
      simp

/-- An element kept as it is, read as a path, is not rooted and is all that is kept. -/
theorem stackOf_real (c : List Char) (hc : realElem c) :
    stackOf c = [c] ∧ rootedChars c = false := by
  obtain ⟨h1, h2, h3, h4⟩ := hc
  cases c with
  | nil => exact absurd rfl h1
  | cons x xs =>
    have hx : x ≠ Separator := fun h0 => h4 (by simp [h0])
    have hb : (x == Separator) = false := by simpa using hx
    refine ⟨?_, by simp [rootedChars, hb]⟩
    simp only [stackOf, hx, if_false]
    rw [splitSep_of_sepFree _ h4]
    simp [cleanStepRelative, h2, h3]

/-- Appending a separator and an element kept as it is to a path that is not empty keeps that
element on top of what the path keeps, and does not change whether it is rooted. -/
theorem stackOf_append (x c : List Char) (hx : x ≠ []) (hc : realElem c) :
    stackOf (x ++ Separator :: c) = c :: stackOf x ∧
      rootedChars (x ++ Separator :: c) = rootedChars x := by
  cases x with
  | nil => exact absurd rfl hx
  | cons a as =>
    refine ⟨?_, by simp [rootedChars]⟩
    have hsplit := splitSep_of_sepFree c hc.2.2.2
    by_cases ha : a = Separator
    · simp only [List.cons_append, stackOf, ha, if_true]
      rw [splitSep_append_cons, List.foldl_append, hsplit]
      simp [(cleanStep_real _ c hc).1]
    · simp only [List.cons_append, stackOf, ha, if_false]
      have := splitSep_append_cons (a :: as) c
      simp only [List.cons_append] at this
      rw [this, List.foldl_append, hsplit]
      simp [(cleanStep_real _ c hc).2]

/-- Rendering a normal shape and cleaning again keeps the same elements and rootedness. -/
theorem stackOf_render (r : Bool) (T : List (List Char)) (hT : normalStack r T) :
    stackOf (render r T.reverse) = T ∧ rootedChars (render r T.reverse) = r := by
  have helems := normalStack_elems r T hT
  by_cases hnil : T = []
  · subst hnil
    cases r <;> simp [render, joinSep, stackOf, rootedChars, splitSep, cleanStepRooted,
      cleanStepRelative, Separator]
  · have hSne : T.reverse ≠ [] := by simpa using hnil
    have hfree : ∀ e ∈ T.reverse, Separator ∉ e :=
      fun e he => (helems e (List.mem_reverse.mp he)).2
    have hsplit := splitSep_joinSep T.reverse hSne hfree
    cases r with
    | true =>
      simp only [normalStack, if_true] at hT
      refine ⟨?_, by simp [render, rootedChars]⟩
      simp only [render, if_true, stackOf]
      rw [hsplit]
      have := (foldl_cleanStep_reals T.reverse
        (fun e he => hT e (List.mem_reverse.mp he)) []).1
      simpa using this
    | false =>
      simp only [normalStack] at hT
      obtain ⟨e, S', hS⟩ := List.exists_cons_of_ne_nil hSne
      have he := helems e (List.mem_reverse.mp (by rw [hS]; exact List.mem_cons_self _ _))
      obtain ⟨x, xs, hx⟩ := List.exists_cons_of_ne_nil he.1
      have hxsep : x ≠ Separator := by
        intro h0
        apply he.2
        rw [hx, h0]
        exact List.mem_cons_self _ _
      have hjoin : joinSep T.reverse =
          x :: (xs ++ (if S' = [] then [] else Separator :: joinSep S')) := by
        rw [hS, joinSep_cons, hx]
        rfl
      have hrender : render false T.reverse = joinSep T.reverse := by
        simp [render, hjoin]
      rw [hrender]
      refine ⟨?_, by rw [hjoin]; simp [rootedChars, hxsep]⟩
      have hst : stackOf (joinSep T.reverse) =
          (splitSep (joinSep T.reverse)).foldl cleanStepRelative [] := by
        rw [hjoin]
        simp [stackOf, hxsep]
      rw [hst, hsplit]
      exact foldl_cleanStepRelative_of_normal T hT

/-- `Clean` is idempotent. -/
theorem cleanChars_idem (y : List Char) : cleanChars (cleanChars y) = cleanChars y := by
  have h := stackOf_render (rootedChars y) (stackOf y) (stackOf_normal y)
  rw [cleanChars_eq_render (cleanChars y)]
  rw [cleanChars_eq_render y, h.1, h.2]

/-! ## Theorems: joining a plain component to a path -/

/-- A string is empty exactly when it has no characters. -/
theorem mk_eq_empty_iff (x : List Char) : (String.mk x = "") ↔ x = [] := by
  constructor
  · intro h; exact congrArg String.data h
  · intro h; subst h; rfl

/-- A plain component is an element that `Clean` keeps as it is. -/
theorem realElem_of_isPlain (c : String) (hc : isPlain c = true) : realElem c.data := by
  rcases c with ⟨l⟩
  simp only [isPlain, containsSeparator, Bool.and_eq_true, decide_eq_true_eq,
    Bool.not_eq_true', List.contains_eq_any_beq, List.any_eq_false, beq_iff_eq] at hc
  obtain ⟨⟨⟨h1, h2⟩, h3⟩, h4⟩ := hc
  refine ⟨fun h0 => h1 (by subst h0; rfl), fun h0 => h3 (by subst h0; rfl),
    fun h0 => h4 (by subst h0; rfl), fun hmem => ?_⟩
  exact h2 Separator hmem rfl

/-- Rendering with one more element on a non-empty list of non-empty elements appends a
separator and the element. -/
theorem render_concat (r : Bool) (S : List (List Char)) (c : List Char) (hS : S ≠ [])
    (hne : ∀ e ∈ S, e ≠ []) :
    render r (S ++ [c]) = render r S ++ Separator :: c ∧ render r S ≠ [] := by
  obtain ⟨e, S', rfl⟩ := List.exists_cons_of_ne_nil hS
  have he := hne e (List.mem_cons_self _ _)
  have hj : joinSep (e :: S') ≠ [] := by
    rw [joinSep_cons]
    simp [he]
  have hjc : joinSep (e :: S' ++ [c]) = joinSep (e :: S') ++ Separator :: c := by
    have := joinSep_concat (e :: S') c
    simpa using this
  have hjc' : joinSep (e :: S' ++ [c]) ≠ [] := by rw [hjc]; simp
  cases r with
  | true =>
    refine ⟨?_, by simp [render]⟩
    simp only [render, if_true]
    rw [hjc]
    rfl
  | false => simp only [render, hjc', hj, if_false, Bool.false_eq_true]; exact ⟨hjc, hj⟩

/-- Rendering a single non-empty element. -/
theorem render_single (r : Bool) (c : List Char) (hc : c ≠ []) :
    render r [c] = (if r then [Separator] else []) ++ c := by
  cases r <;> simp [render, joinSep, hc]

/-- `Join` of a path and a plain component, written with the elements `Clean` keeps. -/
theorem Join_plain (a c : String) (hc : isPlain c = true) :
    Join [a, c] = ⟨render (rootedChars a.data) ((stackOf a.data).reverse ++ [c.data])⟩ := by
  have hreal := realElem_of_isPlain c hc
  rcases a with ⟨x⟩
  rcases c with ⟨l⟩
  have hl : (String.mk l) ≠ "" := fun h0 => hreal.1 ((mk_eq_empty_iff l).mp h0)
  by_cases hx : x = []
  · subst hx
    have h1 : (String.mk []) = "" := rfl
    simp only [Join, h1, if_true, hl, if_false, List.map_cons, List.map_nil, joinSep, Clean]
    rw [cleanChars_eq_render, (stackOf_real l hreal).1, (stackOf_real l hreal).2]
    simp [stackOf, rootedChars]
  · have hx' : (String.mk x) ≠ "" := fun h0 => hx ((mk_eq_empty_iff x).mp h0)
    simp only [Join, hx', if_false, List.map_cons, List.map_nil, joinSep, Clean]
    rw [cleanChars_eq_render, (stackOf_append x l hx hreal).1, (stackOf_append x l hx hreal).2]
    simp

/-- `Clean`, written with the elements it keeps. -/
theorem Clean_eq_render (a : String) :
    Clean a = ⟨render (rootedChars a.data) (stackOf a.data).reverse⟩ := by
  simp [Clean, cleanChars_eq_render]

/-- Joining a plain component to a cleaned path or to the path itself is the same. -/
theorem Join_Clean (a c : String) (hc : isPlain c = true) : Join [Clean a, c] = Join [a, c] := by
  rw [Join_plain (Clean a) c hc, Join_plain a c hc]
  have h := stackOf_render (rootedChars a.data) (stackOf a.data) (stackOf_normal a.data)
  simp only [Clean, cleanChars_eq_render, h.1, h.2]

/-- The result of joining a plain component to a path is already clean. -/
theorem Clean_Join (a c : String) (hc : isPlain c = true) : Clean (Join [a, c]) = Join [a, c] := by
  have hreal := realElem_of_isPlain c hc
  have hn := normalStack_cons _ _ _ (stackOf_normal a.data) hreal
  have h := stackOf_render (rootedChars a.data) (c.data :: stackOf a.data) hn
  rw [Join_plain a c hc]
  simp only [Clean, cleanChars_eq_render]
  rw [List.reverse_cons] at h
  rw [h.1, h.2]
  simp

/-- Dropping from the right what is not a separator removes a separator-free suffix. -/
theorem rdropWhile_append_sepFree (A c : List Char) (hc : Separator ∉ c) :
    (A ++ c).rdropWhile (· != Separator) = A.rdropWhile (· != Separator) := by
  simp only [List.rdropWhile, List.reverse_append]
  rw [List.dropWhile_append_of_pos]
  intro x hx
  have : x ≠ Separator := fun h0 => hc (by rw [← h0]; exact List.mem_reverse.mp hx)
  simpa using this

/-- The parent of a path joined with a plain component is the cleaned path. -/
theorem Dir_Join (a c : String) (hc : isPlain c = true) : Dir (Join [a, c]) = Clean a := by
  have hreal := realElem_of_isPlain c hc
  have helems := normalStack_elems _ _ (stackOf_normal a.data)
  rw [Join_plain a c hc, Clean_eq_render]
  simp only [Dir]
  by_cases hS : (stackOf a.data).reverse = []
  · rw [hS, List.nil_append, render_single _ _ hreal.1, rdropWhile_append_sepFree _ _ hreal.2.2.2]
    cases rootedChars a.data <;> simp [Clean, List.rdropWhile, cleanChars, render, joinSep,
      splitSep, cleanStepRooted, Separator]
  · have hr := render_concat (rootedChars a.data) _ c.data hS
      (fun e he => (helems e (List.mem_reverse.mp he)).1)
    rw [hr.1]
    have h1 : render (rootedChars a.data) (stackOf a.data).reverse ++ Separator :: c.data =
        (render (rootedChars a.data) (stackOf a.data).reverse ++ [Separator]) ++ c.data := by
      simp
    rw [h1, rdropWhile_append_sepFree _ _ hreal.2.2.2,
      List.rdropWhile_concat_neg _ _ _ (by simp)]
    simp only [Clean]
    rw [cleanChars_append_sep _ hr.2, ← cleanChars_eq_render, cleanChars_idem]

/-- A path joined with a plain component differs from the cleaned path. -/
theorem Join_ne_Clean (a c : String) (hc : isPlain c = true) : Join [a, c] ≠ Clean a := by
  have hreal := realElem_of_isPlain c hc
  have helems := normalStack_elems _ _ (stackOf_normal a.data)
  rw [Join_plain a c hc, Clean_eq_render]
  intro h
  have h' := congrArg String.data h
  simp only at h'
  by_cases hS : (stackOf a.data).reverse = []
  · rw [hS, List.nil_append, render_single _ _ hreal.1] at h'
    cases hr : rootedChars a.data with
    | true =>
      rw [hr] at h'
      simp [render, joinSep] at h'
      exact hreal.1 h'
    | false =>
      rw [hr] at h'
      simp [render, joinSep] at h'
      exact hreal.2.1 h'
  · have hr := render_concat (rootedChars a.data) _ c.data hS
      (fun e he => (helems e (List.mem_reverse.mp he)).1)
    rw [hr.1] at h'
    have := congrArg List.length h'
    simp at this

/-- The stack and rootedness of a path joined with a plain component. -/
theorem stackOf_Join (a c : String) (hc : isPlain c = true) :
    stackOf (Join [a, c]).data = c.data :: stackOf a.data ∧
      rootedChars (Join [a, c]).data = rootedChars a.data := by
  have hreal := realElem_of_isPlain c hc
  have hn := normalStack_cons _ _ _ (stackOf_normal a.data) hreal
  have h := stackOf_render (rootedChars a.data) (c.data :: stackOf a.data) hn
  rw [List.reverse_cons] at h
  rw [Join_plain a c hc]
  exact h

/-- Joining a plain component twice at once or one after the other is the same. -/
theorem Join_twice (a c : String) (hc : isPlain c = true) :
    Join [a, c, c] = Join [Join [a, c], c] := by
  have hreal := realElem_of_isPlain c hc
  rw [Join_plain (Join [a, c]) c hc, (stackOf_Join a c hc).1, (stackOf_Join a c hc).2]
  rcases a with ⟨x⟩
  rcases c with ⟨l⟩
  have hl : (String.mk l) ≠ "" := fun h0 => hreal.1 ((mk_eq_empty_iff l).mp h0)
  by_cases hx : x = []
  · subst hx
    have h1 : (String.mk []) = "" := rfl
    simp only [Join, h1, if_true, hl, if_false, List.map_cons, List.map_nil, joinSep, Clean]
    rw [cleanChars_eq_render, (stackOf_append l l hreal.1 hreal).1,
      (stackOf_append l l hreal.1 hreal).2, (stackOf_real l hreal).1, (stackOf_real l hreal).2]
    simp [stackOf, rootedChars]
  · have hx' : (String.mk x) ≠ "" := fun h0 => hx ((mk_eq_empty_iff x).mp h0)
    simp only [Join, hx', if_false, List.map_cons, List.map_nil, joinSep, Clean]
    have h2 : x ++ Separator :: (l ++ Separator :: l) = (x ++ Separator :: l) ++ Separator :: l := by
      simp
    rw [h2, cleanChars_eq_render, (stackOf_append (x ++ Separator :: l) l (by simp) hreal).1,
      (stackOf_append (x ++ Separator :: l) l (by simp) hreal).2,
      (stackOf_append x l hx hreal).1, (stackOf_append x l hx hreal).2]
    simp

/-- After the existence check on `anchor/c` has passed for a plain component `c`, the search
`find(anchor/c, c)` returns `anchor/c/c` when it exists and `anchor/c` otherwise. -/
theorem find_after_check (w : World) (a c : String) (hc : isPlain c = true)
    (hJ : ∃ info, w.stat (Join [a, c]) = .ok info) :
    ((∃ info, w.stat (Join [a, c, c]) = .ok info) ∧ find w (Join [a, c]) c = Join [a, c, c]) ∨
      ((∃ e, w.stat (Join [a, c, c]) = .error e) ∧ find w (Join [a, c]) c = Join [a, c]) := by
  obtain ⟨info, hinfo⟩ := hJ
  rw [Join_twice a c hc]
  unfold find
  rw [show findFuel (Join [a, c]) = (2 * (Join [a, c]).length + 1) + 1 + 1 by
    unfold findFuel; omega]
  unfold findLoop
  simp only
  cases hs : w.stat (Join [Join [a, c], c]) with
  | ok i => exact Or.inl ⟨⟨i, rfl⟩, rfl⟩
  | error e =>
    refine Or.inr ⟨⟨e, rfl⟩, ?_⟩
    simp only [Dir_Join a c hc, (Join_ne_Clean a c hc).symm, if_false]
    unfold findLoop
    simp only [Join_Clean a c hc, hinfo]
    rfl

/-! ## Theorems: trimming and rootedness of the anchors -/

/-- `TrimSpace` changes nothing on a string that neither starts nor ends with white space. -/
theorem TrimSpace_eq_self (h z : Char) (t m : List Char) (hl : h :: t = m ++ [z])
    (hh : isSpace h = false) (hz : isSpace z = false) : TrimSpace ⟨h :: t⟩ = ⟨h :: t⟩ := by
  unfold TrimSpace
  simp only
  rw [List.dropWhile_cons_of_neg (by simp [hh]), hl,
    List.rdropWhile_concat_neg _ _ _ (by simp [hz])]

/-- A non-empty result of `TrimSpace` ends with a character that is not white space. -/
theorem TrimSpace_last (t : String) (h : TrimSpace t ≠ "") :
    ∃ (m : List Char) (z : Char), (TrimSpace t).data = m ++ [z] ∧ isSpace z = false := by
  have hne : (t.data.dropWhile isSpace).rdropWhile isSpace ≠ [] := by
    intro h0
    apply h
    unfold TrimSpace
    rw [h0]
  refine ⟨_, _, (List.dropLast_append_getLast hne).symm, ?_⟩
  have := List.rdropWhile_last_not isSpace _ hne
  simpa using this

/-- `TrimSpace` keeps a rooted string rooted. -/
theorem TrimSpace_rooted (s : String) (h : rootedChars s.data = true) :
    rootedChars (TrimSpace s).data = true := by
  rcases s with ⟨l⟩
  cases l with
  | nil => simp [rootedChars] at h
  | cons c cs =>
    have hc : c = Separator := by simpa [rootedChars] using h
    subst hc
    have hd : (Separator :: cs).dropWhile isSpace = Separator :: cs :=
      List.dropWhile_cons_of_neg (by decide)
    have hpre := List.rdropWhile_prefix isSpace (Separator :: cs)
    have hne : (Separator :: cs).rdropWhile isSpace ≠ [] := by
      intro h0
      have := (List.rdropWhile_eq_nil_iff).mp h0 Separator (List.mem_cons_self _ _)
      exact absurd this (by decide)
    simp only [TrimSpace, hd]
    obtain ⟨x, xs, hx⟩ := List.exists_cons_of_ne_nil hne
    rw [hx] at hpre ⊢
    obtain ⟨t, ht⟩ := hpre
    have : x = Separator := by
      simp only [List.cons_append, List.cons.injEq] at ht
      exact ht.1
    simp [rootedChars, this]

/-- `Clean` keeps a rooted path rooted. -/
theorem cleanChars_rooted (y : List Char) (h : rootedChars y = true) :
    rootedChars (cleanChars y) = true := by
  rw [cleanChars_eq_render, h]
  simp [render, rootedChars]

/-- A rooted path joined with a plain component starts with the separator and ends with the
component. -/
theorem Join_rooted_shape (a c : String) (hc : isPlain c = true)
    (ha : rootedChars a.data = true) :
    ∃ m : List Char, (Join [a, c]).data = Separator :: (m ++ c.data) := by
  rw [Join_plain a c hc, ha]
  simp only [render, if_true, joinSep_concat]
  exact ⟨_, rfl⟩

/-- `TrimSpace` changes nothing on a rooted path joined with a trimmed plain component. -/
theorem TrimSpace_Join (a t : String) (hc : isPlain (TrimSpace t) = true)
    (ha : rootedChars a.data = true) :
    TrimSpace (Join [a, TrimSpace t]) = Join [a, TrimSpace t] := by
  have hreal := realElem_of_isPlain _ hc
  obtain ⟨m, hm⟩ := Join_rooted_shape a (TrimSpace t) hc ha
  obtain ⟨m', z, hz, hzs⟩ := TrimSpace_last t (fun h0 => hreal.1 (by rw [h0]))
  have hJ : Join [a, TrimSpace t] = ⟨Separator :: (m ++ (TrimSpace t).data)⟩ := by
    rw [← hm]
  rw [hJ]
  exact TrimSpace_eq_self Separator z _ (Separator :: (m ++ m')) (by rw [hz]; simp)
    (by decide) hzs

/-- What the loop body of `Find` returns for a plain candidate at a rooted anchor: `anchor/c`
or `anchor/c/c`, where `anchor/c` is a directory and the returned path exists. -/
theorem tryTarget_plain (w : World) (anchor t p : String)
    (hc : isPlain (TrimSpace t) = true) (ha : rootedChars anchor.data = true)
    (h : tryTarget w anchor t = some p) :
    (p = Join [anchor, TrimSpace t] ∨ p = Join [anchor, TrimSpace t, TrimSpace t]) ∧
      (∃ info, w.stat (Join [anchor, TrimSpace t]) = .ok info ∧ info.isDir = true) ∧
      (∃ info, w.stat p = .ok info) := by
  have hl : TrimSpace t ≠ "" := by
    intro h0
    rw [h0] at hc
    exact absurd hc (by decide)
  unfold tryTarget at h
  simp only at h
  rw [if_neg hl] at h
  cases hs : w.stat (Join [anchor, TrimSpace t]) with
  | error e => simp [hs] at h
  | ok info =>
    rw [hs] at h
    simp only at h
    have hdir : info.isDir = true := by
      by_contra hd
      simp [hd] at h
    simp only [hdir, Bool.not_true, Bool.false_eq_true, if_false] at h
    have hp : p = TrimSpace (find w (Join [anchor, TrimSpace t]) (TrimSpace t)) := by
      split_ifs at h
      exact (Option.some.inj h).symm
    rcases find_after_check w anchor (TrimSpace t) hc ⟨info, hs⟩ with ⟨hex, hf⟩ | ⟨-, hf⟩
    · rw [hf, Join_twice anchor _ hc, TrimSpace_Join _ t hc
        (by rw [(stackOf_Join anchor _ hc).2]; exact ha), ← Join_twice anchor _ hc] at hp
      exact ⟨Or.inr hp, ⟨info, rfl, hdir⟩, by rw [hp]; exact hex⟩
    · rw [hf, TrimSpace_Join _ t hc ha] at hp
      exact ⟨Or.inl hp, ⟨info, rfl, hdir⟩, by rw [hp]; exact ⟨info, hs⟩⟩

/-- A blank target is skipped. -/
theorem tryTarget_blank (w : World) (anchor t : String) (h : TrimSpace t = "") :
    tryTarget w anchor t = none := by
  simp [tryTarget, h]

/-- With an absolute working directory, the anchor of the working-directory phase is rooted
and so is the repository root when one is resolved. -/
theorem anchors_rooted (w : World) (cwd : String) (hcwd : w.getwd = .ok cwd)
    (habs : IsAbs cwd = true) :
    rootedChars (Abs w cwd).1.data = true ∧
      ∀ a, gitDirectory w a ≠ "" → rootedChars (gitDirectory w a).data = true := by
  have hr : rootedChars cwd.data = true := habs
  have hAbs : ∀ g : String, rootedChars (Abs w g).1.data = true := by
    intro g
    unfold Abs
    split_ifs with hg
    · exact cleanChars_rooted _ hg
    · rw [hcwd]
      simp only
      have hne : cwd ≠ "" := by
        intro h0
        rw [h0] at hr
        simp [rootedChars] at hr
      simp only [Join, hne, if_false, List.map_cons, List.map_nil, joinSep, Clean]
      apply cleanChars_rooted
      rcases cwd with ⟨l⟩
      cases l with
      | nil => simp [rootedChars] at hr
      | cons c cs => simpa [rootedChars] using hr
  refine ⟨hAbs cwd, fun a hne => ?_⟩
  unfold gitDirectory at hne ⊢
  cases hroot : w.root a with
  | error e => simp [hroot] at hne
  | ok g =>
    simp only [hroot]
    exact TrimSpace_rooted _ (hAbs g)

/-! ## Theorems: what `find` returns -/

/-- More rounds do not change what the loop of `find` returns once it has returned. -/
theorem findLoop_more_rounds (w : World) (desired : String) :
    ∀ (n : Nat) (current v : String), findLoop w desired n current = some v →
      ∀ extra : Nat, findLoop w desired (n + extra) current = some v := by
  intro n
  induction n with
  | zero => intro current v h; simp [findLoop] at h
  | succ n ih =>
    intro current v h extra
    rw [show n + 1 + extra = (n + extra) + 1 by omega]
    unfold findLoop at h ⊢
    simp only at h ⊢
    cases hs : w.stat (Join [current, desired]) with
    | ok info => rw [hs] at h; exact h
    | error e =>
      rw [hs] at h
      simp only at h ⊢
      split_ifs at h ⊢ with hp
      · exact h
      · exact ih _ _ h extra

/-- A result of the loop of `find` comes from the first level, counted in parent steps from
the current path, at which `os.Stat` succeeds on the level joined with the desired name, or at
which the level is its own parent; every level before it has a failing `os.Stat` and a parent
different from itself. -/
theorem findLoop_levels (w : World) (desired : String) :
    ∀ (n : Nat) (current v : String), findLoop w desired n current = some v →
      ∃ k : Nat,
        (∀ j, j < k → (∃ e, w.stat (Join [Dir^[j] current, desired]) = .error e) ∧
          Dir (Dir^[j] current) ≠ Dir^[j] current) ∧
        (((∃ info, w.stat (Join [Dir^[k] current, desired]) = .ok info) ∧
            v = Join [Dir^[k] current, desired]) ∨
          ((∃ e, w.stat (Join [Dir^[k] current, desired]) = .error e) ∧
            Dir (Dir^[k] current) = Dir^[k] current ∧ v = "")) := by
  intro n
  induction n with
  | zero => intro current v h; simp [findLoop] at h
  | succ n ih =>
    intro current v h
    unfold findLoop at h
    simp only at h
    cases hs : w.stat (Join [current, desired]) with
    | ok info =>
      rw [hs] at h
      refine ⟨0, fun j hj => absurd hj (Nat.not_lt_zero j), Or.inl ⟨⟨info, hs⟩, ?_⟩⟩
      exact (Option.some.inj h).symm
    | error e =>
      rw [hs] at h
      simp only at h
      split_ifs at h with hp
      · refine ⟨0, fun j hj => absurd hj (Nat.not_lt_zero j), Or.inr ⟨⟨e, hs⟩, hp, ?_⟩⟩
        exact (Option.some.inj h).symm
      · obtain ⟨k, hbefore, hat⟩ := ih _ _ h
        refine ⟨k + 1, fun j hj => ?_, ?_⟩
        · cases j with
          | zero => exact ⟨⟨e, hs⟩, hp⟩
          | succ j =>
            have := hbefore j (by omega)
            simpa [Function.iterate_succ_apply] using this
        · simpa [Function.iterate_succ_apply] using hat

/-- A path that is its own parent is the root or the current directory. -/
theorem Dir_fixed (p : String) (h : Dir p = p) : p = "/" ∨ p = "." := by
  rcases p with ⟨l⟩
  have hDir : Dir ⟨l⟩ = ⟨cleanChars (l.rdropWhile (· != Separator))⟩ := rfl
  by_cases hpre : l.rdropWhile (· != Separator) = []
  · right
    rw [← h, hDir, hpre]
    rfl
  · have hlast := List.rdropWhile_last_not (· != Separator) l hpre
    have hlast' : (l.rdropWhile (· != Separator)).getLast hpre = Separator := by
      simpa using hlast
    have hsplit := List.dropLast_append_getLast hpre
    rw [hlast'] at hsplit
    have hprefix : (l.rdropWhile (· != Separator)).length ≤ l.length :=
      (List.rdropWhile_prefix (· != Separator) l).length_le
    have hlen : (l.rdropWhile (· != Separator)).length =
        (l.rdropWhile (· != Separator)).dropLast.length + 1 := by
      conv_lhs => rw [← hsplit]
      simp
    by_cases hy : (l.rdropWhile (· != Separator)).dropLast = []
    · left
      have hpre1 : l.rdropWhile (· != Separator) = [Separator] := by
        rw [← hsplit, hy]; rfl
      rw [← h, hDir, hpre1]
      decide
    · exfalso
      have hc := cleanChars_append_sep _ hy
      rw [hsplit] at hc
      have hle := cleanChars_length_le _ hy
      rw [← hc] at hle
      have := congrArg String.length h
      rw [hDir] at this
      simp only [String.length] at this
      omega

/-- The parent of a rooted path is rooted. -/
theorem Dir_rooted (p : String) (h : rootedChars p.data = true) :
    rootedChars (Dir p).data = true := by
  rcases p with ⟨l⟩
  cases l with
  | nil => simp [rootedChars] at h
  | cons c cs =>
    have hc : c = Separator := by simpa [rootedChars] using h
    subst hc
    apply cleanChars_rooted
    have hne : (Separator :: cs).rdropWhile (· != Separator) ≠ [] := by
      intro h0
      have := (List.rdropWhile_eq_nil_iff).mp h0 Separator (List.mem_cons_self _ _)
      simp at this
    obtain ⟨x, xs, hx⟩ := List.exists_cons_of_ne_nil hne
    have hpre := List.rdropWhile_prefix (· != Separator) (Separator :: cs)
    simp only at hx ⊢
    rw [hx] at hpre ⊢
    obtain ⟨t, ht⟩ := hpre
    have : x = Separator := by
      simp only [List.cons_append, List.cons.injEq] at ht
      exact ht.1
    simp [rootedChars, this]

/-- Every level above a rooted path is rooted. -/
theorem iterate_Dir_rooted (p : String) (h : rootedChars p.data = true) (k : Nat) :
    rootedChars (Dir^[k] p).data = true := by
  induction k with
  | zero => exact h
  | succ k ih =>
    rw [Function.iterate_succ_apply']
    exact Dir_rooted _ ih

/-- C11: the ancestor search `find` terminates for every start path and desired name: its loop
returns within the rounds granted and any further rounds give the same result; every step goes
to the parent of the current path, and the result is `current/desired` for the first level at
which it exists, or the empty string when before that a level is reached that is its own
parent; such a level is `/` or `.`, and it is the root `/` when the start path is absolute. -/
theorem C11_find_terminates (w : World) (start desired : String) :
    (∀ extra : Nat,
        findLoop w desired (findFuel start + extra) start = some (find w start desired)) ∧
      ∃ k : Nat,
        (∀ j, j < k → (∃ e, w.stat (Join [Dir^[j] start, desired]) = .error e) ∧
          Dir (Dir^[j] start) ≠ Dir^[j] start) ∧
        (((∃ info, w.stat (Join [Dir^[k] start, desired]) = .ok info) ∧
            find w start desired = Join [Dir^[k] start, desired]) ∨
          ((∃ e, w.stat (Join [Dir^[k] start, desired]) = .error e) ∧
            Dir (Dir^[k] start) = Dir^[k] start ∧
            (Dir^[k] start = "/" ∨ Dir^[k] start = ".") ∧
            (IsAbs start = true → Dir^[k] start = "/") ∧
            find w start desired = "")) := by
  refine ⟨findLoop_more_rounds w desired _ _ _ (findLoop_fuel_suffices w start desired), ?_⟩
  obtain ⟨k, hbefore, hat⟩ :=
    findLoop_levels w desired _ _ _ (findLoop_fuel_suffices w start desired)
  refine ⟨k, hbefore, ?_⟩
  rcases hat with h | ⟨h1, h2, h3⟩
  · exact Or.inl h
  · refine Or.inr ⟨h1, h2, Dir_fixed _ h2, fun habs => ?_, h3⟩
    rcases Dir_fixed _ h2 with h4 | h4
    · exact h4
    · have hr := iterate_Dir_rooted start habs k
      rw [h4] at hr
      exact absurd hr (by decide)

/-- Witness for C11: the search from `/repo/src` for "testdata" in the example tree, which ends
one level up at `/repo/testdata`, and the search for "fixtures", which ends at the root with
the empty string. -/
theorem C11_find_terminates_witness :
    find (worldOf "/repo/src" none repoPaths) "/repo/src" "testdata" = "/repo/testdata" ∧
      find (worldOf "/repo/src" none repoPaths) "/repo/src" "fixtures" = "" ∧
      ∀ extra : Nat,
        findLoop (worldOf "/repo/src" none repoPaths) "testdata"
          (findFuel "/repo/src" + extra) "/repo/src" =
            some (find (worldOf "/repo/src" none repoPaths) "/repo/src" "testdata") :=
  ⟨by decide, by decide,
    (C11_find_terminates (worldOf "/repo/src" none repoPaths) "/repo/src" "testdata").1⟩

/-! ## Theorems: what a successful `Find` returns -/

/-- A successful `Find` returns what the candidate loop found at the working directory or,
failing that, at a resolved repository root. -/
theorem Find_success_phase (w : World) (d : Data) (d1 : Option Data) (cwd p : String)
    (hcwd : w.getwd = .ok cwd) (h : Find w (some d) = (d1, p, none)) :
    searchTargets w (Abs w cwd).1 (seedTarget d.target) = some p ∨
      (gitDirectory w (Abs w cwd).1 ≠ "" ∧
        searchTargets w (gitDirectory w (Abs w cwd).1) (seedTarget d.target) = some p) := by
  simp only [Find, Data.Find, hcwd] at h
  cases hA : searchTargets w (Abs w cwd).1 (seedTarget d.target) with
  | some v =>
    simp only [hA, Prod.mk.injEq] at h
    exact Or.inl (by rw [h.2.1])
  | none =>
    simp only [hA] at h
    split_ifs at h with hgit
    · cases hB : searchTargets w (gitDirectory w (Abs w cwd).1) (seedTarget d.target) with
      | some v =>
        simp only [hB, Prod.mk.injEq] at h
        exact Or.inr ⟨hgit, by rw [h.2.1]⟩
      | none => simp [hB] at h
    · simp at h

/-- The parent of `anchor/c` is the cleaned anchor and the parent of `anchor/c/c` is
`anchor/c`. -/
theorem Dir_of_result (anchor c p : String) (hc : isPlain c = true)
    (hp : p = Join [anchor, c] ∨ p = Join [anchor, c, c]) :
    Dir p = Clean anchor ∨ Dir p = Join [anchor, c] := by
  rcases hp with h | h
  · exact Or.inl (by rw [h, Dir_Join anchor c hc])
  · exact Or.inr (by rw [h, Join_twice anchor c hc, Dir_Join _ c hc, Clean_Join anchor c hc])

/-- C12: for every anchor and every plain component `c`, once `os.Stat` has succeeded on
`anchor/c`, the search `find(anchor/c, c)` returns `anchor/c/c` or `anchor/c` and never the empty
string; hence, with an absolute working directory and plain (or blank) candidates, every
successful `Find` returns `anchor/c` or `anchor/c/c` for a candidate `c` and an anchor that is the
working directory or the repository root, so the result lies in the anchor or in `anchor/c`, not
in a proper ancestor of the anchor. -/
theorem C12_Find_stays_at_anchor (w : World) :
    (∀ anchor c : String, isPlain c = true →
        (∃ info, w.stat (Join [anchor, c]) = .ok info) →
        (find w (Join [anchor, c]) c = Join [anchor, c, c] ∨
            find w (Join [anchor, c]) c = Join [anchor, c]) ∧
          find w (Join [anchor, c]) c ≠ "") ∧
      ∀ (d : Data) (d1 : Option Data) (cwd p : String), w.getwd = .ok cwd → IsAbs cwd = true →
        (∀ t ∈ seedTarget d.target, TrimSpace t = "" ∨ isPlain (TrimSpace t) = true) →
        Find w (some d) = (d1, p, none) →
        ∃ anchor c : String,
          (anchor = (Abs w cwd).1 ∨ anchor = gitDirectory w (Abs w cwd).1) ∧
            c ∈ (seedTarget d.target).map TrimSpace ∧ isPlain c = true ∧
            (p = Join [anchor, c] ∨ p = Join [anchor, c, c]) ∧
            (Dir p = Clean anchor ∨ Dir p = Join [anchor, c]) := by
  have hne : ∀ a c : String, isPlain c = true → Join [a, c] ≠ "" := by
    intro a c hc h0
    have h1 := Clean_Join a c hc
    rw [h0] at h1
    exact absurd h1 (by decide)
  refine ⟨fun anchor c hc hJ => ?_, fun d d1 cwd p hcwd habs hplain hF => ?_⟩
  · rcases find_after_check w anchor c hc hJ with ⟨-, hf⟩ | ⟨-, hf⟩
    · exact ⟨Or.inl hf, by rw [hf, Join_twice anchor c hc]; exact hne _ c hc⟩
    · exact ⟨Or.inr hf, by rw [hf]; exact hne _ c hc⟩
  · have hroot := anchors_rooted w cwd hcwd habs
    have key : ∀ anchor : String, rootedChars anchor.data = true →
        searchTargets w anchor (seedTarget d.target) = some p →
        ∃ c : String, c ∈ (seedTarget d.target).map TrimSpace ∧ isPlain c = true ∧
          (p = Join [anchor, c] ∨ p = Join [anchor, c, c]) ∧
          (Dir p = Clean anchor ∨ Dir p = Join [anchor, c]) := by
      intro anchor ha hs
      obtain ⟨t, ht, htry⟩ := searchTargets_some w anchor _ p hs
      rcases hplain t ht with hb | hpl
      · rw [tryTarget_blank w anchor t hb] at htry
        cases htry
      · have h1 := (tryTarget_plain w anchor t p hpl ha htry).1
        exact ⟨TrimSpace t, List.mem_map_of_mem _ ht, hpl, h1, Dir_of_result anchor _ p hpl h1⟩
    rcases Find_success_phase w d d1 cwd p hcwd hF with hA | ⟨hgit, hB⟩
    · obtain ⟨c, h1, h2, h3, h4⟩ := key _ hroot.1 hA
      exact ⟨_, c, Or.inl rfl, h1, h2, h3, h4⟩
    · obtain ⟨c, h1, h2, h3, h4⟩ := key _ (hroot.2 _ hgit) hB
      exact ⟨_, c, Or.inr rfl, h1, h2, h3, h4⟩

/-- Witness for C12: in `/w` holding the directory `testdata`, the existence check on
`/w/testdata` passes and the search from there returns `/w/testdata`; when `testdata` also holds
an entry `testdata`, it returns `/w/testdata/testdata`. -/
theorem C12_Find_stays_at_anchor_witness :
    find (worldOf "/w" none plainPaths) "/w/testdata" "testdata" = "/w/testdata" ∧
      find (worldOf "/w" none nestedFilePaths) "/w/testdata" "testdata" =
        "/w/testdata/testdata" ∧
      ((find (worldOf "/w" none plainPaths) (Join ["/w", "testdata"]) "testdata" =
            Join ["/w", "testdata", "testdata"] ∨
          find (worldOf "/w" none plainPaths) (Join ["/w", "testdata"]) "testdata" =
            Join ["/w", "testdata"]) ∧
        find (worldOf "/w" none plainPaths) (Join ["/w", "testdata"]) "testdata" ≠ "") ∧
      ∃ anchor c : String,
        (anchor = (Abs (worldOf "/w" none plainPaths) "/w").1 ∨
          anchor = gitDirectory (worldOf "/w" none plainPaths)
            (Abs (worldOf "/w" none plainPaths) "/w").1) ∧
          c ∈ (seedTarget (New []).target).map TrimSpace ∧ isPlain c = true ∧
          ("/w/testdata" = Join [anchor, c] ∨ "/w/testdata" = Join [anchor, c, c]) ∧
          (Dir "/w/testdata" = Clean anchor ∨ Dir "/w/testdata" = Join [anchor, c]) :=
  ⟨by decide, by decide,
    (C12_Find_stays_at_anchor (worldOf "/w" none plainPaths)).1 "/w" "testdata" (by decide)
      ⟨{ name := "testdata", isDir := true }, by decide⟩,
    (C12_Find_stays_at_anchor (worldOf "/w" none plainPaths)).2 (New [])
      (some { target := ["testdata"], qualified := "/w/testdata" }) "/w" "/w/testdata" rfl
      (by decide) (by decide) (by decide)⟩

end filewalker

/-! # Theorems: `internal/types/level` -/

namespace level

/-- A string that `Set` rejects leaves the stored value as it was. -/
theorem Set_rejected_unchanged (o : Type_) (v : String) (h : (Set o v).2 ≠ none) :
    (Set o v).1 = o := by
  unfold Set at h ⊢
  simp only at h ⊢
  split_ifs at h ⊢ with hl
  · exact absurd rfl h
  · rfl

/-- A string that `Set` accepts is stored as it was given, and it spells a level name
ignoring case. -/
theorem Set_accepted_stores_argument (o : Type_) (v : String) (h : (Set o v).2 = none) :
    (Set o v).1 = v ∧ (levelOfName v).isSome = true := by
  unfold Set at h ⊢
  simp only at h ⊢
  split_ifs at h ⊢ with hl
  · refine ⟨rfl, ?_⟩
    unfold levelOfName
    simp only
    rcases hl with h1 | h1 | h1 | h1 | h1 | h1 <;> rw [h1] <;> decide

/-- C13: `Set("INFO")` is accepted and stores "INFO", which is none of the six level
constants, and `Level()` of the stored value is `slog.LevelError`, not the level
`slog.LevelInfo` of the name that "INFO" spells ignoring case. -/
theorem C13_Set_stores_unnormalised_value :
    Set Info "INFO" = ("INFO", none) ∧
      (Set Info "INFO").1 ∉ [Trace, Debug, Info, Notice, Warning, Error] ∧
      Level (Set Info "INFO").1 = slog.LevelError ∧
      levelOfName "INFO" = some slog.LevelInfo ∧
      slog.LevelError ≠ slog.LevelInfo ∧
      Set Info "info" = (Info, none) ∧ Level (Set Trace "info").1 = slog.LevelInfo ∧
      Set Info "verbose" = (Info, (Set Info "verbose").2) ∧ (Set Info "verbose").2 ≠ none := by
  decide

end level
